import Mathlib

/-!
# Content resolution engine of the hvlabs blog — shallow embedding

This file embeds the content-resolution layer of the blog
(`src/lib/posts.ts` and the modules file) in Lean 4 and proves the
specification's claims about it.

The filesystem is modelled as an explicit value: markdown files appear in
parsed form (YAML frontmatter parsing by `gray-matter` and the reading-time
computation by `reading-time` are external collaborators, so an `Entry`
carries the parsed frontmatter, the body, and the collaborator's
ceiling-rounded minute count).  JavaScript semantics that the code relies
on are modelled explicitly: `||`-defaulting on falsy values, `indexOf`
with `-1` sentinel, UTF-16 code-unit string comparison, `Array.prototype.sort`
as a stable sort driven by the comparator (for a consistent comparison
function, the ES2019 stability mandate makes this the unique allowed
result; for an inconsistent comparator ECMA-262 leaves the order
implementation-defined, which `jsSortAllowed` below records — no theorem
relies on the executable model's tie order in that case), with a
comparator result of `NaN` treated as `0` per `SortCompare`,
and `new Date("YYYY-MM-DD").getTime()` as proleptic-Gregorian day counting
scaled to milliseconds (date-only ISO strings are parsed as UTC midnight;
strings not in the ISO `YYYY-MM-DD` shape are modelled as an invalid date,
i.e. `NaN`).
-/

namespace Blog

/-- File extension of a directory entry.  The code distinguishes `.md`,
`.mdx` and everything else (via `endsWith` checks). -/
inductive Ext where
  | md
  | mdx
  | other
deriving DecidableEq, Repr

/-- Parsed YAML frontmatter of a markdown file, as returned by the external
`gray-matter` collaborator.  A field that is absent in the YAML block is
`none`. -/
structure FrontData where
  title : Option String := none
  date : Option String := none
  description : Option String := none
  tags : Option (List String) := none
  category : Option String := none
  featured : Option Bool := none
  draft : Option Bool := none
  order : Option Int := none
  postOrder : Option (List String) := none
deriving DecidableEq, Repr

/-- One file of a directory, in parsed form: base name (the filename minus
its final `.md`/`.mdx` extension), extension, frontmatter, body text, and
the external reading-time collaborator's ceiling-rounded minute count for
the body (`Math.ceil(readingTime(content).minutes)`). -/
structure Entry where
  base : String
  ext : Ext
  data : FrontData := {}
  content : String := ""
  minutes : Nat := 0
deriving DecidableEq, Repr

/-- A subdirectory of `content/modules`: its name and its files. -/
structure ModuleDir where
  name : String
  entries : List Entry
deriving DecidableEq, Repr

/-- A directory entry of the `content/modules` root: a subdirectory or a
plain file (the code filters with `dirent.isDirectory()`). -/
inductive DirEnt where
  | dir (d : ModuleDir)
  | file (e : Entry)
deriving DecidableEq, Repr

/-- The filesystem as the code sees it: the `content/posts` directory and
the `content/modules` directory, each `none` when the directory does not
exist (`fs.existsSync` fails). -/
structure FS where
  posts : Option (List Entry)
  modules : Option (List DirEnt)
deriving DecidableEq, Repr

/-- The `Post` record of `src/lib/posts.ts`. -/
structure Post where
  slug : String
  title : String
  date : String
  description : Option String
  tags : List String
  category : Option String
  featured : Bool
  draft : Bool
  readingTime : Nat
  module : Option String := none
  content : String
deriving DecidableEq, Repr

/-- The `Module` record of the modules file, with the defaults already
applied (the code always stores defaulted `order` and `postOrder`). -/
structure Module where
  slug : String
  title : String
  description : Option String
  order : Int
  postOrder : List String
deriving DecidableEq, Repr

/-! ## JavaScript semantics helpers -/

/-- JavaScript `v || d` for an optional number: `undefined` and `0` are
falsy, any other number is kept. -/
def jsOrNum (v : Option Int) (d : Int) : Int :=
  match v with
  | none => d
  | some n => if n = 0 then d else n

/-- JavaScript `n || d` applied to a number already at hand
(`a.order || 999` inside the module sort). -/
def jsOrNumV (n : Int) (d : Int) : Int :=
  if n = 0 then d else n

/-- JavaScript `Array.prototype.indexOf` on an array of strings: index of
the first occurrence, `-1` when absent. -/
def jsIndexOf : List String → String → Int
  | [], _ => -1
  | x :: xs, s =>
    if x = s then 0
    else
      let r := jsIndexOf xs s
      if r = -1 then -1 else r + 1

/-- UTF-16 code-unit lexicographic `<` on character lists, the order
JavaScript uses for `string < string`. -/
def charsLt : List Char → List Char → Bool
  | [], [] => false
  | [], _ :: _ => true
  | _ :: _, [] => false
  | a :: as, b :: bs =>
    if a < b then true
    else if b < a then false
    else charsLt as bs

/-- JavaScript `s < t` on strings. -/
def strLt (s t : String) : Bool :=
  charsLt s.data t.data

/-- Insert `x` into `l` before the first element `y` with `le x y`;
the merge step of the stable-sort model below. -/
def insertS (le : α → α → Bool) (x : α) : List α → List α
  | [] => [x]
  | y :: ys => if le x y then x :: y :: ys else y :: insertS le x ys

/-- Model of `Array.prototype.sort(cmp)`: a stable sort that puts `a`
no later than `b` exactly when `le a b` (callers pass
`le a b := cmp a b ≤ 0`, with a `NaN` comparator value already turned
into `0` as `SortCompare` prescribes).  For a consistent comparison
function the ES2019 stability mandate makes this the unique allowed
result.  For an inconsistent comparator (such as the one `getAllPosts`
passes, which never returns `0`) ECMA-262 only guarantees a permutation;
this executable model then fixes one of the allowed outcomes, and theorems
about such a call must not rely on its tie order (see `jsSortAllowed` and
C2's correction). -/
def sortS (le : α → α → Bool) : List α → List α
  | [] => []
  | x :: xs => insertS le x (sortS le xs)

/-! ## Calendar model of `new Date("YYYY-MM-DD").getTime()` -/

/-- Gregorian leap-year test. -/
def isLeap (y : Nat) : Bool :=
  (y % 4 = 0 && y % 100 ≠ 0) || y % 400 = 0

/-- Number of leap years in `[0, y)` (year 0 of the proleptic Gregorian
calendar is a leap year). -/
def leapsBefore : Nat → Nat
  | 0 => 0
  | y + 1 => leapsBefore y + (if isLeap y then 1 else 0)

/-- Days in month `m` (1-based) of a year with leap flag `leap`. -/
def daysInMonth (leap : Bool) (m : Nat) : Nat :=
  match m with
  | 1 => 31
  | 2 => if leap then 29 else 28
  | 3 => 31
  | 4 => 30
  | 5 => 31
  | 6 => 30
  | 7 => 31
  | 8 => 31
  | 9 => 30
  | 10 => 31
  | 11 => 30
  | 12 => 31
  | _ => 0

/-- Days of the year strictly before month `m` (1-based). -/
def monthOffset (leap : Bool) (m : Nat) : Nat :=
  match m with
  | 1 => 0
  | 2 => 31
  | 3 => 59 + (if leap then 1 else 0)
  | 4 => 90 + (if leap then 1 else 0)
  | 5 => 120 + (if leap then 1 else 0)
  | 6 => 151 + (if leap then 1 else 0)
  | 7 => 181 + (if leap then 1 else 0)
  | 8 => 212 + (if leap then 1 else 0)
  | 9 => 243 + (if leap then 1 else 0)
  | 10 => 273 + (if leap then 1 else 0)
  | 11 => 304 + (if leap then 1 else 0)
  | 12 => 334 + (if leap then 1 else 0)
  | _ => 0

/-- Day number of `y-m-d` counted from 0000-01-01 of the proleptic
Gregorian calendar. -/
def daysSinceYear0 (y m d : Nat) : Nat :=
  365 * y + leapsBefore y + monthOffset (isLeap y) m + (d - 1)

/-- Day number of the Unix epoch 1970-01-01 in the `daysSinceYear0`
scale (365·1970 + 478 leap years in [0,1970)). -/
def epochDays : Nat := 719528

/-- Numeric value of a decimal digit character. -/
def digitVal (c : Char) : Nat := c.toNat - 48

/-- Parse a string of the exact shape `YYYY-MM-DD` into `(year, month,
day)`; `none` for any other shape. -/
def parseIso (s : String) : Option (Nat × Nat × Nat) :=
  match s.data with
  | [y1, y2, y3, y4, h1, m1, m2, h2, d1, d2] =>
    if y1.isDigit && y2.isDigit && y3.isDigit && y4.isDigit &&
       h1 = '-' && m1.isDigit && m2.isDigit &&
       h2 = '-' && d1.isDigit && d2.isDigit then
      some (((digitVal y1 * 10 + digitVal y2) * 10 + digitVal y3) * 10 + digitVal y4,
            digitVal m1 * 10 + digitVal m2,
            digitVal d1 * 10 + digitVal d2)
    else none
  | _ => none

/-- Calendar validity of a `(y, m, d)` triple: the checks the ISO date-time
parser of a JavaScript engine performs before building a time value. -/
def validYMD (y m d : Nat) : Bool :=
  1 ≤ m && m ≤ 12 && 1 ≤ d && d ≤ daysInMonth (isLeap y) m

/-- `new Date(s).getTime()` for a date-only ISO string: milliseconds since
the Unix epoch at UTC midnight of the date; `none` stands for `NaN`
(invalid date). -/
def jsGetTime (s : String) : Option Int :=
  match parseIso s with
  | some (y, m, d) =>
    if validYMD y m d then
      some (((daysSinceYear0 y m d : Int) - epochDays) * 86400000)
    else none
  | none => none

/-- A date string the spec's data model allows: ISO `YYYY-MM-DD` shape
and calendar-valid. -/
def validIso (s : String) : Bool :=
  match parseIso s with
  | some (y, m, d) => validYMD y m d
  | none => false

/-- `x - y` on two `getTime()` results under `SortCompare`: a `NaN`
operand makes the difference `NaN`, which the sort treats as `0`. -/
def subNaN (a b : Option Int) : Int :=
  match a, b with
  | some x, some y => x - y
  | _, _ => 0

/-! ## The module repository (the unnamed modules file) -/

/-- `dirent.isDirectory()` as an extractor. -/
def dirOf : DirEnt → Option ModuleDir
  | .dir d => some d
  | .file _ => none

/-- Select a directory by name. -/
def dirNamed (slug : String) : DirEnt → Option ModuleDir
  | .dir d => if d.name = slug then some d else none
  | .file _ => none

/-- First directory of the modules root with the given name — what path
resolution of `content/modules/<slug>` yields. -/
def findDir (root : List DirEnt) (slug : String) : Option ModuleDir :=
  root.findSome? (dirNamed slug)

/-- Is this file the `metadata.md` descriptor? -/
def isMetaFile (e : Entry) : Bool :=
  e.base = "metadata" && e.ext = Ext.md

/-- The `metadata.md` file of a module directory, if present
(`fs.existsSync(.../metadata.md)` plus the read). -/
def metaEntry (d : ModuleDir) : Option Entry :=
  d.entries.find? isMetaFile

/-- Build the `Module` record from a directory name and its parsed
`metadata.md`, applying the code's defaults (`data.title || ''`,
`data.order || 999`, `data.postOrder || []`). -/
def moduleOfMeta (dirName : String) (m : Entry) : Module :=
  { slug := dirName
    title := m.data.title.getD ""
    description := m.data.description
    order := jsOrNum m.data.order 999
    postOrder := m.data.postOrder.getD [] }

/-- Build a `Post` record from a parsed file, applying the code's
defaults; `mod` is the owning module's slug (`none` for standalone
posts). -/
def postOfEntry (e : Entry) (mod : Option String) : Post :=
  { slug := e.base
    title := e.data.title.getD ""
    date := e.data.date.getD ""
    description := e.data.description
    tags := e.data.tags.getD []
    category := e.data.category
    featured := e.data.featured.getD false
    draft := e.data.draft.getD false
    readingTime := e.minutes
    module := mod
    content := e.content }

/-- One step of `getAllModules`'s map: read a directory's `metadata.md`
into a `Module`, or `null` when the descriptor is missing. -/
def moduleOfDir (d : ModuleDir) : Option Module :=
  match metaEntry d with
  | none => none
  | some m => some (moduleOfMeta d.name m)

/-- `getAllModules()`: every subdirectory of the modules root that has a
`metadata.md`, as a `Module`, sorted ascending by
`(a.order || 999) - (b.order || 999)`. -/
def getAllModules (fs : FS) : List Module :=
  match fs.modules with
  | none => []
  | some root =>
    let moduleDirs := root.filterMap dirOf
    let allModules := moduleDirs.filterMap moduleOfDir
    sortS (fun a b => jsOrNumV a.order 999 - jsOrNumV b.order 999 ≤ 0) allModules

/-- `getModuleBySlug(slug)`. -/
def getModuleBySlug (fs : FS) (slug : String) : Option Module :=
  match fs.modules with
  | none => none
  | some root =>
    match findDir root slug with
    | none => none
    | some d =>
      match metaEntry d with
      | none => none
      | some m => some (moduleOfMeta slug m)

/-- Is a directory entry a markdown file other than `metadata.md`
(the member-post filter of `getPostsByModule`)? -/
def isMemberFile (e : Entry) : Bool :=
  (e.ext = Ext.md || e.ext = Ext.mdx) && !(e.base = "metadata" && e.ext = Ext.md)

/-- The comparator `getPostsByModule` passes to `sort` when the module
has a non-empty `postOrder`. -/
def moduleCmp (postOrder : List String) (a b : Post) : Int :=
  let indexA := jsIndexOf postOrder a.slug
  let indexB := jsIndexOf postOrder b.slug
  if indexA ≠ -1 && indexB ≠ -1 then indexA - indexB
  else if indexA ≠ -1 then -1
  else if indexB ≠ -1 then 1
  else subNaN (jsGetTime a.date) (jsGetTime b.date)

/-- The date comparator `sort` sees when the module has no `postOrder`:
`new Date(a.date).getTime() - new Date(b.date).getTime()` with `NaN`
flattened to `0` by `SortCompare`. -/
def dateCmp (a b : Post) : Int :=
  subNaN (jsGetTime a.date) (jsGetTime b.date)

/-- The non-draft member posts of a module directory, in directory scan
order (before `getPostsByModule` sorts them). -/
def memberPosts (moduleSlug : String) (d : ModuleDir) : List Post :=
  ((d.entries.filter isMemberFile).map
    fun e => postOfEntry e (some moduleSlug)).filter fun p => !p.draft

/-- `getPostsByModule(moduleSlug)`. -/
def getPostsByModule (fs : FS) (moduleSlug : String) : List Post :=
  match fs.modules with
  | none => []
  | some root =>
    match findDir root moduleSlug with
    | none => []
    | some d =>
      match metaEntry d with
      | none => []
      | some m =>
        let module := moduleOfMeta moduleSlug m
        let posts := memberPosts moduleSlug d
        if module.postOrder.length > 0 then
          sortS (fun a b => moduleCmp module.postOrder a b ≤ 0) posts
        else
          sortS (fun a b => dateCmp a b ≤ 0) posts

/-- `getAllPostsFromModules()`. -/
def getAllPostsFromModules (fs : FS) : List Post :=
  (getAllModules fs).flatMap fun module => getPostsByModule fs module.slug

namespace Modules

/-- One iteration of the modules file's `getPostBySlug` loop: inside the
directory of `module`, probe `<slug>.md` then `<slug>.mdx` and build the
post (no draft filtering). -/
def probeModule (root : List DirEnt) (slug : String) (module : Module) :
    Option Post :=
  match findDir root module.slug with
  | none => none
  | some d =>
    match d.entries.find? fun e => e.base = slug && e.ext = Ext.md with
    | some e => some (postOfEntry e (some module.slug))
    | none =>
      match d.entries.find? fun e => e.base = slug && e.ext = Ext.mdx with
      | some e => some (postOfEntry e (some module.slug))
      | none => none

/-- The modules file's `getPostBySlug(slug)`: iterate the modules of
`getAllModules()`, probe `<dir>/<slug>.md` then `<dir>/<slug>.mdx`,
return the first hit (no draft filtering). -/
def getPostBySlug (fs : FS) (slug : String) : Option Post :=
  match fs.modules with
  | none => none
  | some root => (getAllModules fs).findSome? (probeModule root slug)

end Modules

/-- `getNextPostInModule` / `getModuleProgress` return this record. -/
structure Progress where
  current : Nat
  total : Nat
deriving DecidableEq, Repr

/-- `getModuleProgress(currentPost)`: position (1-based) and count of the
post within its module's ordered list; `null` without a module (the code's
falsy test also rejects the empty string) or when the slug is not found. -/
def getModuleProgress (fs : FS) (currentPost : Post) : Option Progress :=
  match currentPost.module with
  | none => none
  | some mslug =>
    if mslug = "" then none
    else
      let modulePosts := getPostsByModule fs mslug
      match modulePosts.findIdx? fun p => p.slug = currentPost.slug with
      | none => none
      | some i => some { current := i + 1, total := modulePosts.length }

/-! ## The post repository and aggregator (`src/lib/posts.ts`) -/

/-- Is a posts-directory entry a markdown file
(`endsWith('.md') || endsWith('.mdx')`)? -/
def isMarkdown (e : Entry) : Bool :=
  e.ext = Ext.md || e.ext = Ext.mdx

/-- The non-draft standalone posts, in directory scan order. -/
def standalonePosts (fs : FS) : List Post :=
  match fs.posts with
  | none => []
  | some entries =>
    ((entries.filter isMarkdown).map fun e => postOfEntry e none).filter
      fun p => !p.draft

/-- The comparator of `getAllPosts`:
`if (a.date < b.date) return 1 else return -1`.  It never returns `0`, so
it is not a consistent comparison function on equal-date posts. -/
def globalCmp (a b : Post) : Int :=
  if strLt a.date b.date then 1 else -1

/-- `getAllPosts()`: module posts then standalone posts, sorted by
`globalCmp` (descending date).  Because `globalCmp` is inconsistent on
equal-date posts, ECMA-262 makes their relative order
implementation-defined; the `sortS` model fixes one allowed outcome, and
no theorem below depends on that choice (only on permutation and
descending order, which hold for every outcome a sorting algorithm
respecting the comparator can produce). -/
def getAllPosts (fs : FS) : List Post :=
  sortS (fun a b => globalCmp a b ≤ 0)
    (getAllPostsFromModules fs ++ standalonePosts fs)

namespace Posts

/-- The standalone half of the aggregator's `getPostBySlug`: probe
`content/posts/<slug>.md` then `<slug>.mdx` (no draft filtering). -/
def standaloneLookup (entries : List Entry) (slug : String) : Option Post :=
  match entries.find? fun e => e.base = slug && e.ext = Ext.md with
  | some e => some (postOfEntry e none)
  | none =>
    match entries.find? fun e => e.base = slug && e.ext = Ext.mdx with
    | some e => some (postOfEntry e none)
    | none => none

/-- The aggregator's `getPostBySlug(slug)` of `src/lib/posts.ts`: the
modules lookup first, then the standalone probe (no draft filtering in
either branch). -/
def getPostBySlug (fs : FS) (slug : String) : Option Post :=
  match Modules.getPostBySlug fs slug with
  | some modulePost => some modulePost
  | none =>
    match fs.posts with
    | none => none
    | some entries => standaloneLookup entries slug

end Posts

/-- `getFeaturedPosts()`. -/
def getFeaturedPosts (fs : FS) : List Post :=
  ((getAllPosts fs).filter fun post => post.featured).take 3

/-- JavaScript `Set` insertion order: adding each element in turn keeps
the first occurrence and drops later duplicates. -/
def jsSetDedup (l : List String) : List String :=
  l.foldl (fun acc x => if x ∈ acc then acc else acc ++ [x]) []

/-- `getAllTags()`: every tag of every listed post, deduplicated via a
`Set`, sorted by the default (code-unit lexicographic) comparator. -/
def getAllTags (fs : FS) : List String :=
  sortS (fun a b => !strLt b a)
    (jsSetDedup ((getAllPosts fs).flatMap fun post => post.tags))

/-! ## Lemmas about the stable-sort model -/

theorem insertS_perm (le : α → α → Bool) (x : α) (l : List α) :
    List.Perm (insertS le x l) (x :: l) := by
  induction l with
  | nil => exact List.Perm.refl _
  | cons y ys ih =>
    simp only [insertS]
    by_cases h : le x y = true
    · rw [if_pos h]
    · rw [if_neg h]
      exact (ih.cons y).trans (List.Perm.swap x y ys)

theorem mem_insertS {le : α → α → Bool} {x a : α} {l : List α} :
    a ∈ insertS le x l ↔ a = x ∨ a ∈ l := by
  rw [(insertS_perm le x l).mem_iff, List.mem_cons]

theorem sortS_perm (le : α → α → Bool) (l : List α) :
    List.Perm (sortS le l) l := by
  induction l with
  | nil => exact List.Perm.refl _
  | cons x xs ih => exact (insertS_perm le x (sortS le xs)).trans (ih.cons x)

theorem mem_sortS {le : α → α → Bool} {a : α} {l : List α} :
    a ∈ sortS le l ↔ a ∈ l :=
  (sortS_perm le l).mem_iff

theorem pairwise_insertS {le : α → α → Bool} {x : α} {l : List α}
    (htot : ∀ b ∈ l, le x b = true ∨ le b x = true)
    (htrans : ∀ b ∈ l, ∀ c ∈ l, le x b = true → le b c = true → le x c = true)
    (hl : l.Pairwise fun a b => le a b = true) :
    (insertS le x l).Pairwise fun a b => le a b = true := by
  induction l with
  | nil => simp [insertS]
  | cons y ys ih =>
    rcases List.pairwise_cons.1 hl with ⟨hy, hys⟩
    simp only [insertS]
    by_cases h : le x y = true
    · rw [if_pos h]
      refine List.pairwise_cons.2 ⟨?_, hl⟩
      intro z hz
      rcases List.mem_cons.1 hz with rfl | hz'
      · exact h
      · exact htrans y (List.mem_cons_self y ys) z (List.mem_cons_of_mem y hz') h
          (hy z hz')
    · have hyx : le y x = true :=
        (htot y (List.mem_cons_self y ys)).resolve_left h
      rw [if_neg h]
      refine List.pairwise_cons.2 ⟨?_, ?_⟩
      · intro z hz
        rcases mem_insertS.1 hz with rfl | hz'
        · exact hyx
        · exact hy z hz'
      · exact ih (fun b hb => htot b (List.mem_cons_of_mem y hb))
          (fun b hb c hc => htrans b (List.mem_cons_of_mem y hb)
            c (List.mem_cons_of_mem y hc)) hys

theorem pairwise_sortS {le : α → α → Bool} {l : List α}
    (htot : ∀ a ∈ l, ∀ b ∈ l, le a b = true ∨ le b a = true)
    (htrans : ∀ a ∈ l, ∀ b ∈ l, ∀ c ∈ l,
      le a b = true → le b c = true → le a c = true) :
    (sortS le l).Pairwise fun a b => le a b = true := by
  induction l with
  | nil => simp [sortS]
  | cons x xs ih =>
    simp only [sortS]
    refine pairwise_insertS ?_ ?_ ?_
    · intro b hb
      exact htot x (List.mem_cons_self x xs) b
        (List.mem_cons_of_mem x (mem_sortS.1 hb))
    · intro b hb c hc
      exact htrans x (List.mem_cons_self x xs)
        b (List.mem_cons_of_mem x (mem_sortS.1 hb))
        c (List.mem_cons_of_mem x (mem_sortS.1 hc))
    · exact ih
        (fun a ha b hb => htot a (List.mem_cons_of_mem x ha)
          b (List.mem_cons_of_mem x hb))
        (fun a ha b hb c hc => htrans a (List.mem_cons_of_mem x ha)
          b (List.mem_cons_of_mem x hb) c (List.mem_cons_of_mem x hc))

theorem insertS_congr {le₁ le₂ : α → α → Bool} {x : α} {l : List α}
    (h : ∀ b ∈ l, le₁ x b = le₂ x b) :
    insertS le₁ x l = insertS le₂ x l := by
  induction l with
  | nil => rfl
  | cons y ys ih =>
    simp only [insertS, h y (List.mem_cons_self y ys)]
    cases hy : le₂ x y with
    | true => simp
    | false => simp [ih (fun b hb => h b (List.mem_cons_of_mem y hb))]

theorem sortS_congr {le₁ le₂ : α → α → Bool} {l : List α}
    (h : ∀ a ∈ l, ∀ b ∈ l, le₁ a b = le₂ a b) :
    sortS le₁ l = sortS le₂ l := by
  induction l with
  | nil => rfl
  | cons x xs ih =>
    have hinner : sortS le₁ xs = sortS le₂ xs :=
      ih (fun a ha b hb => h a (List.mem_cons_of_mem x ha)
        b (List.mem_cons_of_mem x hb))
    simp only [sortS]
    rw [insertS_congr (fun b hb =>
      h x (List.mem_cons_self x xs) b
        (List.mem_cons_of_mem x (mem_sortS.1 hb))), hinner]

/-! ## Digit characters and lexicographic comparison of ISO date strings -/

theorem char_lt_iff_toNat {a b : Char} : a < b ↔ a.toNat < b.toNat := by
  rw [Char.lt_def, UInt32.lt_def]
  exact Iff.rfl

theorem char_eq_iff_toNat {a b : Char} : a = b ↔ a.toNat = b.toNat := by
  constructor
  · intro h; rw [h]
  · intro h
    apply Char.ext
    apply UInt32.toBitVec_injective
    apply BitVec.toNat_injective
    exact h

theorem isDigit_toNat {c : Char} (h : c.isDigit = true) :
    48 ≤ c.toNat ∧ c.toNat ≤ 57 := by
  simp [Char.isDigit, Char.le_def, UInt32.le_def] at h
  exact h

theorem digit_lt_iff {a b : Char} (ha : a.isDigit = true) (hb : b.isDigit = true) :
    a < b ↔ digitVal a < digitVal b := by
  have h1 := isDigit_toNat ha
  have h2 := isDigit_toNat hb
  rw [char_lt_iff_toNat]
  unfold digitVal
  omega

theorem digit_eq_iff {a b : Char} (ha : a.isDigit = true) (hb : b.isDigit = true) :
    a = b ↔ digitVal a = digitVal b := by
  have h1 := isDigit_toNat ha
  have h2 := isDigit_toNat hb
  rw [char_eq_iff_toNat]
  unfold digitVal
  omega

theorem digitVal_le_nine {c : Char} (h : c.isDigit = true) : digitVal c ≤ 9 := by
  have := isDigit_toNat h
  unfold digitVal
  omega

theorem charsLt_cons {a b : Char} {as bs : List Char} :
    charsLt (a :: as) (b :: bs) = true ↔
      a < b ∨ (a = b ∧ charsLt as bs = true) := by
  simp only [charsLt]
  by_cases h1 : a < b
  · simp [h1]
  · by_cases h2 : b < a
    · have hne : a ≠ b := ne_of_gt h2
      simp only [if_neg h1, if_pos h2]
      simp [h1, hne]
    · have heq : a = b := le_antisymm (not_lt.1 h2) (not_lt.1 h1)
      simp [if_neg h1, if_neg h2, heq]

/-- Inversion of `parseIso`: a successfully parsed string has the exact
ten-character shape, and the numbers are its digit values. -/
theorem parseIso_inv {s : String} {y m d : Nat}
    (h : parseIso s = some (y, m, d)) :
    ∃ y1 y2 y3 y4 m1 m2 d1 d2 : Char,
      s.data = [y1, y2, y3, y4, '-', m1, m2, '-', d1, d2] ∧
      y1.isDigit = true ∧ y2.isDigit = true ∧ y3.isDigit = true ∧
      y4.isDigit = true ∧ m1.isDigit = true ∧ m2.isDigit = true ∧
      d1.isDigit = true ∧ d2.isDigit = true ∧
      y = ((digitVal y1 * 10 + digitVal y2) * 10 + digitVal y3) * 10 + digitVal y4 ∧
      m = digitVal m1 * 10 + digitVal m2 ∧
      d = digitVal d1 * 10 + digitVal d2 := by
  unfold parseIso at h
  split at h
  case h_1 y1 y2 y3 y4 h1 m1 m2 h2 d1 d2 heq =>
    split at h
    case isTrue hcond =>
      simp only [Bool.and_eq_true, decide_eq_true_eq] at hcond
      obtain ⟨⟨⟨⟨⟨⟨⟨⟨⟨c1, c2⟩, c3⟩, c4⟩, c5⟩, c6⟩, c7⟩, c8⟩, c9⟩, c10⟩ := hcond
      refine ⟨y1, y2, y3, y4, m1, m2, d1, d2, ?_, c1, c2, c3, c4, c6, c7, c9, c10, ?_, ?_, ?_⟩
      · rw [heq, c5, c8]
      all_goals
        injection h with h'
        injection h' with ha hb
        injection hb with hb hc
      · exact ha.symm
      · exact hb.symm
      · exact hc.symm
    case isFalse => exact absurd h (by simp)
  case h_2 => exact absurd h (by simp)

/-- Lexicographic comparison of two ISO date strings is the lexicographic
comparison of their `(year, month, day)` triples. -/
theorem strLt_iso {s t : String} {y m d y' m' d' : Nat}
    (hs : parseIso s = some (y, m, d)) (ht : parseIso t = some (y', m', d')) :
    (strLt s t = true) ↔
      (y < y' ∨ (y = y' ∧ (m < m' ∨ (m = m' ∧ d < d')))) := by
  obtain ⟨y1, y2, y3, y4, m1, m2, d1, d2, hds, hy1, hy2, hy3, hy4, hm1, hm2,
    hd1, hd2, hyv, hmv, hdv⟩ := parseIso_inv hs
  obtain ⟨y1', y2', y3', y4', m1', m2', d1', d2', hdt, hy1', hy2', hy3', hy4',
    hm1', hm2', hd1', hd2', hyv', hmv', hdv'⟩ := parseIso_inv ht
  have b1 := digitVal_le_nine hy1
  have b2 := digitVal_le_nine hy2
  have b3 := digitVal_le_nine hy3
  have b4 := digitVal_le_nine hy4
  have b5 := digitVal_le_nine hm1
  have b6 := digitVal_le_nine hm2
  have b7 := digitVal_le_nine hd1
  have b8 := digitVal_le_nine hd2
  have b1' := digitVal_le_nine hy1'
  have b2' := digitVal_le_nine hy2'
  have b3' := digitVal_le_nine hy3'
  have b4' := digitVal_le_nine hy4'
  have b5' := digitVal_le_nine hm1'
  have b6' := digitVal_le_nine hm2'
  have b7' := digitVal_le_nine hd1'
  have b8' := digitVal_le_nine hd2'
  rw [strLt, hds, hdt]
  rw [charsLt_cons, digit_lt_iff hy1 hy1', digit_eq_iff hy1 hy1',
    charsLt_cons, digit_lt_iff hy2 hy2', digit_eq_iff hy2 hy2',
    charsLt_cons, digit_lt_iff hy3 hy3', digit_eq_iff hy3 hy3',
    charsLt_cons, digit_lt_iff hy4 hy4', digit_eq_iff hy4 hy4',
    charsLt_cons,
    charsLt_cons, digit_lt_iff hm1 hm1', digit_eq_iff hm1 hm1',
    charsLt_cons, digit_lt_iff hm2 hm2', digit_eq_iff hm2 hm2',
    charsLt_cons,
    charsLt_cons, digit_lt_iff hd1 hd1', digit_eq_iff hd1 hd1',
    charsLt_cons, digit_lt_iff hd2 hd2', digit_eq_iff hd2 hd2']
  simp only [lt_self_iff_false, charsLt, Bool.false_eq_true, and_false,
    or_false, false_or, true_and]
  subst hyv hmv hdv hyv' hmv' hdv'
  omega

/-- Equality of two ISO date strings is equality of their triples. -/
theorem eq_iso {s t : String} {y m d y' m' d' : Nat}
    (hs : parseIso s = some (y, m, d)) (ht : parseIso t = some (y', m', d')) :
    s = t ↔ (y = y' ∧ m = m' ∧ d = d') := by
  constructor
  · intro h
    subst h
    rw [hs] at ht
    injection ht with h'
    injection h' with ha hb
    injection hb with hb hc
    exact ⟨ha, hb, hc⟩
  · rintro ⟨rfl, rfl, rfl⟩
    obtain ⟨y1, y2, y3, y4, m1, m2, d1, d2, hds, hy1, hy2, hy3, hy4, hm1, hm2,
      hd1, hd2, hyv, hmv, hdv⟩ := parseIso_inv hs
    obtain ⟨y1', y2', y3', y4', m1', m2', d1', d2', hdt, hy1', hy2', hy3', hy4',
      hm1', hm2', hd1', hd2', hyv', hmv', hdv'⟩ := parseIso_inv ht
    have b1 := digitVal_le_nine hy1
    have b2 := digitVal_le_nine hy2
    have b3 := digitVal_le_nine hy3
    have b4 := digitVal_le_nine hy4
    have b5 := digitVal_le_nine hm1
    have b6 := digitVal_le_nine hm2
    have b7 := digitVal_le_nine hd1
    have b8 := digitVal_le_nine hd2
    have b1' := digitVal_le_nine hy1'
    have b2' := digitVal_le_nine hy2'
    have b3' := digitVal_le_nine hy3'
    have b4' := digitVal_le_nine hy4'
    have b5' := digitVal_le_nine hm1'
    have b6' := digitVal_le_nine hm2'
    have b7' := digitVal_le_nine hd1'
    have b8' := digitVal_le_nine hd2'
    apply String.ext
    rw [hds, hdt]
    have e1 : y1 = y1' := (digit_eq_iff hy1 hy1').2 (by omega)
    have e2 : y2 = y2' := (digit_eq_iff hy2 hy2').2 (by omega)
    have e3 : y3 = y3' := (digit_eq_iff hy3 hy3').2 (by omega)
    have e4 : y4 = y4' := (digit_eq_iff hy4 hy4').2 (by omega)
    have e5 : m1 = m1' := (digit_eq_iff hm1 hm1').2 (by omega)
    have e6 : m2 = m2' := (digit_eq_iff hm2 hm2').2 (by omega)
    have e7 : d1 = d1' := (digit_eq_iff hd1 hd1').2 (by omega)
    have e8 : d2 = d2' := (digit_eq_iff hd2 hd2').2 (by omega)
    rw [e1, e2, e3, e4, e5, e6, e7, e8]

/-! ## Monotonicity of the calendar day count -/

theorem leapsBefore_mono {a b : Nat} (h : a ≤ b) : leapsBefore a ≤ leapsBefore b := by
  induction b with
  | zero =>
    have : a = 0 := Nat.le_zero.1 h
    subst this
    exact Nat.le_refl _
  | succ n ih =>
    rcases Nat.lt_or_ge a (n + 1) with hlt | hge
    · have h1 : leapsBefore a ≤ leapsBefore n := ih (Nat.lt_succ_iff.1 hlt)
      have h2 : leapsBefore n ≤ leapsBefore (n + 1) := by
        simp only [leapsBefore]
        omega
      exact Nat.le_trans h1 h2
    · have : a = n + 1 := Nat.le_antisymm h hge
      subst this
      exact Nat.le_refl _

theorem monthOffset_step : ∀ leap : Bool, ∀ m, m < 13 → ∀ m', m' < 13 →
    1 ≤ m → m < m' → monthOffset leap m + daysInMonth leap m ≤ monthOffset leap m' := by
  decide

theorem monthOffset_last : ∀ leap : Bool, ∀ m, m < 13 → 1 ≤ m →
    monthOffset leap m + daysInMonth leap m ≤ 365 + (if leap then 1 else 0) := by
  decide

/-- Strict monotonicity of the day count on calendar-valid dates, in the
lexicographic order of `(year, month, day)`. -/
theorem daysSinceYear0_lt {y m d y' m' d' : Nat}
    (hv : validYMD y m d = true) (hv' : validYMD y' m' d' = true)
    (hlt : y < y' ∨ (y = y' ∧ (m < m' ∨ (m = m' ∧ d < d')))) :
    daysSinceYear0 y m d < daysSinceYear0 y' m' d' := by
  simp only [validYMD, Bool.and_eq_true, decide_eq_true_eq] at hv hv'
  obtain ⟨⟨⟨hm1, hm2⟩, hd1⟩, hd2⟩ := hv
  obtain ⟨⟨⟨hm1', hm2'⟩, hd1'⟩, hd2'⟩ := hv'
  rcases hlt with hy | ⟨rfl, hm | ⟨rfl, hd⟩⟩
  · -- year strictly smaller: bound this year's days by the year length
    have hmax := monthOffset_last (isLeap y) m (by omega) hm1
    have hstep : leapsBefore (y + 1) = leapsBefore y + (if isLeap y then 1 else 0) := by
      simp [leapsBefore]
    have hmono : leapsBefore (y + 1) ≤ leapsBefore y' := leapsBefore_mono hy
    unfold daysSinceYear0
    cases hby : isLeap y <;> simp [hby] at hmax hstep hd2 ⊢ <;> omega
  · -- same year, month strictly smaller
    have hstep := monthOffset_step (isLeap y) m (by omega) m' (by omega) hm1 hm
    unfold daysSinceYear0
    omega
  · -- same year and month, day strictly smaller
    unfold daysSinceYear0
    omega

/-- On valid dates the `getTime()` values exist and compare exactly as the
date strings compare lexicographically. -/
theorem jsGetTime_valid {s t : String}
    (hs : validIso s = true) (ht : validIso t = true) :
    ∃ x y : Int, jsGetTime s = some x ∧ jsGetTime t = some y ∧
      (x < y ↔ strLt s t = true) ∧ (x = y ↔ s = t) := by
  unfold validIso at hs ht
  split at hs
  case h_2 => exact absurd hs (by simp)
  case h_1 y m d hps =>
    split at ht
    case h_2 => exact absurd ht (by simp)
    case h_1 y' m' d' hpt =>
      refine ⟨((daysSinceYear0 y m d : Int) - epochDays) * 86400000,
        ((daysSinceYear0 y' m' d' : Int) - epochDays) * 86400000,
        by simp [jsGetTime, hps, hs], by simp [jsGetTime, hpt, ht], ?_, ?_⟩
      · rw [strLt_iso hps hpt]
        constructor
        · intro h
          by_contra hn
          rcases Nat.lt_trichotomy y y' with h1 | h1
          · exact hn (Or.inl h1)
          rcases h1 with rfl | h1
          · rcases Nat.lt_trichotomy m m' with h2 | h2
            · exact hn (Or.inr ⟨rfl, Or.inl h2⟩)
            rcases h2 with rfl | h2
            · rcases Nat.lt_trichotomy d d' with h3 | h3
              · exact hn (Or.inr ⟨rfl, Or.inr ⟨rfl, h3⟩⟩)
              rcases h3 with rfl | h3
              · omega
              · have := daysSinceYear0_lt ht hs (Or.inr ⟨rfl, Or.inr ⟨rfl, h3⟩⟩)
                omega
            · have := daysSinceYear0_lt ht hs (Or.inr ⟨rfl, Or.inl h2⟩)
              omega
          · have := daysSinceYear0_lt ht hs (Or.inl h1)
            omega
        · intro h
          have := daysSinceYear0_lt hs ht h
          omega
      · rw [eq_iso hps hpt]
        constructor
        · intro h
          rcases Nat.lt_trichotomy y y' with h1 | h1
          · have := daysSinceYear0_lt hs ht (Or.inl h1)
            omega
          rcases h1 with rfl | h1
          · rcases Nat.lt_trichotomy m m' with h2 | h2
            · have := daysSinceYear0_lt hs ht (Or.inr ⟨rfl, Or.inl h2⟩)
              omega
            rcases h2 with rfl | h2
            · rcases Nat.lt_trichotomy d d' with h3 | h3
              · have := daysSinceYear0_lt hs ht (Or.inr ⟨rfl, Or.inr ⟨rfl, h3⟩⟩)
                omega
              rcases h3 with rfl | h3
              · exact ⟨rfl, rfl, rfl⟩
              · have := daysSinceYear0_lt ht hs (Or.inr ⟨rfl, Or.inr ⟨rfl, h3⟩⟩)
                omega
            · have := daysSinceYear0_lt ht hs (Or.inr ⟨rfl, Or.inl h2⟩)
              omega
          · have := daysSinceYear0_lt ht hs (Or.inl h1)
            omega
        · rintro ⟨rfl, rfl, rfl⟩
          rfl

/-! ## Order properties of code-unit string comparison -/

theorem charsLt_irrefl : ∀ s : List Char, charsLt s s = false
  | [] => rfl
  | a :: as => by
    have ih := charsLt_irrefl as
    simp [charsLt, ih]

theorem charsLt_asymm : ∀ {s t : List Char},
    charsLt s t = true → charsLt t s = false
  | [], [], h => by simp [charsLt] at h
  | [], _ :: _, _ => rfl
  | _ :: _, [], h => by simp [charsLt] at h
  | a :: as, b :: bs, h => by
    rcases charsLt_cons.1 h with hab | ⟨rfl, hrec⟩
    · have h1 : ¬b < a := lt_asymm hab
      rw [charsLt]
      simp [h1, hab]
    · have := charsLt_asymm hrec
      simp [charsLt, this]

theorem charsLt_trans : ∀ {s t u : List Char},
    charsLt s t = true → charsLt t u = true → charsLt s u = true
  | [], [], _, h, _ => by simp [charsLt] at h
  | [], _ :: _, [], _, h => by simp [charsLt] at h
  | [], _ :: _, _ :: _, _, _ => rfl
  | _ :: _, [], _, h, _ => by simp [charsLt] at h
  | _ :: _, _ :: _, [], _, h => by simp [charsLt] at h
  | a :: as, b :: bs, c :: cs, h1, h2 => by
    rcases charsLt_cons.1 h1 with hab | ⟨rfl, hrec1⟩
    · rcases charsLt_cons.1 h2 with hbc | ⟨rfl, _⟩
      · exact charsLt_cons.2 (Or.inl (lt_trans hab hbc))
      · exact charsLt_cons.2 (Or.inl hab)
    · rcases charsLt_cons.1 h2 with hbc | ⟨rfl, hrec2⟩
      · exact charsLt_cons.2 (Or.inl hbc)
      · exact charsLt_cons.2 (Or.inr ⟨rfl, charsLt_trans hrec1 hrec2⟩)

theorem charsLt_connex : ∀ {s t : List Char},
    charsLt s t = false → charsLt t s = false → s = t
  | [], [], _, _ => rfl
  | [], _ :: _, h, _ => by simp [charsLt] at h
  | _ :: _, [], _, h => by simp [charsLt] at h
  | a :: as, b :: bs, h1, h2 => by
    have hab : ¬a < b := by
      intro hc
      rw [charsLt_cons.2 (Or.inl hc)] at h1
      simp at h1
    have hba : ¬b < a := by
      intro hc
      rw [charsLt_cons.2 (Or.inl hc)] at h2
      simp at h2
    have heq : a = b := le_antisymm (not_lt.1 hba) (not_lt.1 hab)
    subst heq
    have hr1 : charsLt as bs = false := by
      cases hr : charsLt as bs with
      | false => rfl
      | true =>
        rw [charsLt_cons.2 (Or.inr ⟨rfl, hr⟩)] at h1
        exact absurd h1 (by simp)
    have hr2 : charsLt bs as = false := by
      cases hr : charsLt bs as with
      | false => rfl
      | true =>
        rw [charsLt_cons.2 (Or.inr ⟨rfl, hr⟩)] at h2
        exact absurd h2 (by simp)
    rw [charsLt_connex hr1 hr2]

theorem strLt_asymm {s t : String} (h : strLt s t = true) : strLt t s = false :=
  charsLt_asymm h

theorem strLt_connex {s t : String} (h1 : strLt s t = false)
    (h2 : strLt t s = false) : s = t :=
  String.ext (charsLt_connex h1 h2)

theorem strLt_irrefl (s : String) : strLt s s = false :=
  charsLt_irrefl s.data

/-! ## `indexOf` bridge -/

theorem jsIndexOf_of_not_mem {l : List String} {s : String} (h : s ∉ l) :
    jsIndexOf l s = -1 := by
  induction l with
  | nil => rfl
  | cons x xs ih =>
    have hx : ¬x = s := fun hc => h (hc ▸ List.mem_cons_self x xs)
    have hxs : s ∉ xs := fun hc => h (List.mem_cons_of_mem x hc)
    simp [jsIndexOf, hx, ih hxs]

theorem jsIndexOf_of_mem {l : List String} {s : String} (h : s ∈ l) :
    jsIndexOf l s = (l.indexOf s : Int) := by
  induction l with
  | nil => exact absurd h (List.not_mem_nil s)
  | cons x xs ih =>
    by_cases hx : x = s
    · subst hx
      simp [jsIndexOf, List.indexOf_cons_self]
    · have hxs : s ∈ xs := (List.mem_cons.1 h).resolve_left (fun hc => hx hc.symm)
      have hne : jsIndexOf xs s = (xs.indexOf s : Int) := ih hxs
      have hnonneg : (0 : Int) ≤ (xs.indexOf s : Int) := Int.natCast_nonneg _
      have hbe : (x == s) = false := beq_eq_false_iff_ne.2 hx
      simp only [jsIndexOf, if_neg hx, List.indexOf_cons, hbe, cond_false]
      rw [if_neg (by omega)]
      rw [hne]
      push_cast
      ring

theorem jsIndexOf_ne_neg_one {l : List String} {s : String} :
    jsIndexOf l s ≠ -1 ↔ s ∈ l := by
  constructor
  · intro h
    by_contra hn
    exact h (jsIndexOf_of_not_mem hn)
  · intro h
    rw [jsIndexOf_of_mem h]
    have : (0 : Int) ≤ (l.indexOf s : Int) := Int.natCast_nonneg _
    omega

/-! ## Membership plumbing through the listing pipeline -/

theorem mem_memberPosts {p : Post} {slug : String} {d : ModuleDir} :
    p ∈ memberPosts slug d ↔
      ∃ e ∈ d.entries, isMemberFile e = true ∧
        e.data.draft.getD false = false ∧ p = postOfEntry e (some slug) := by
  simp only [memberPosts, List.mem_filter, List.mem_map]
  constructor
  · rintro ⟨⟨e, ⟨he, hf⟩, rfl⟩, hd⟩
    refine ⟨e, he, hf, ?_, rfl⟩
    simpa [postOfEntry] using hd
  · rintro ⟨e, he, hf, hd, rfl⟩
    exact ⟨⟨e, ⟨he, hf⟩, rfl⟩, by simpa [postOfEntry] using hd⟩

theorem draft_false_of_mem_memberPosts {p : Post} {slug : String}
    {d : ModuleDir} (h : p ∈ memberPosts slug d) : p.draft = false := by
  obtain ⟨e, _, _, hd, rfl⟩ := mem_memberPosts.1 h
  simpa [postOfEntry] using hd

theorem module_of_mem_memberPosts {p : Post} {slug : String}
    {d : ModuleDir} (h : p ∈ memberPosts slug d) : p.module = some slug := by
  obtain ⟨e, _, _, _, rfl⟩ := mem_memberPosts.1 h
  rfl

theorem mem_getPostsByModule {fs : FS} {slug : String} {p : Post}
    (h : p ∈ getPostsByModule fs slug) :
    ∃ root d, fs.modules = some root ∧ findDir root slug = some d ∧
      metaEntry d ≠ none ∧ p ∈ memberPosts slug d := by
  unfold getPostsByModule at h
  split at h
  case h_1 => exact absurd h (List.not_mem_nil p)
  case h_2 root hroot =>
    split at h
    case h_1 => exact absurd h (List.not_mem_nil p)
    case h_2 d hdir =>
      split at h
      case h_1 => exact absurd h (List.not_mem_nil p)
      case h_2 m hmeta =>
        refine ⟨root, d, hroot, hdir, by simp [hmeta], ?_⟩
        simp only [] at h
        split at h <;> exact mem_sortS.1 h

theorem draft_false_of_mem_getPostsByModule {fs : FS} {slug : String}
    {p : Post} (h : p ∈ getPostsByModule fs slug) : p.draft = false := by
  obtain ⟨_, _, _, _, _, hm⟩ := mem_getPostsByModule h
  exact draft_false_of_mem_memberPosts hm

theorem module_of_mem_getPostsByModule {fs : FS} {slug : String}
    {p : Post} (h : p ∈ getPostsByModule fs slug) : p.module = some slug := by
  obtain ⟨_, _, _, _, _, hm⟩ := mem_getPostsByModule h
  exact module_of_mem_memberPosts hm

theorem mem_getAllPostsFromModules {fs : FS} {p : Post}
    (h : p ∈ getAllPostsFromModules fs) :
    ∃ m ∈ getAllModules fs, p ∈ getPostsByModule fs m.slug := by
  simpa [getAllPostsFromModules, List.mem_flatMap] using h

theorem mem_standalonePosts {fs : FS} {p : Post} (h : p ∈ standalonePosts fs) :
    ∃ entries, fs.posts = some entries ∧
      ∃ e ∈ entries, isMarkdown e = true ∧
        e.data.draft.getD false = false ∧ p = postOfEntry e none := by
  unfold standalonePosts at h
  split at h
  case h_1 => exact absurd h (List.not_mem_nil p)
  case h_2 entries hentries =>
    refine ⟨entries, hentries, ?_⟩
    simp only [List.mem_filter, List.mem_map] at h
    obtain ⟨⟨e, ⟨he, hf⟩, rfl⟩, hd⟩ := h
    exact ⟨e, he, hf, by simpa [postOfEntry] using hd, rfl⟩

theorem draft_false_of_mem_standalonePosts {fs : FS} {p : Post}
    (h : p ∈ standalonePosts fs) : p.draft = false := by
  obtain ⟨_, _, _, _, _, hd, rfl⟩ := mem_standalonePosts h
  simpa [postOfEntry] using hd

theorem mem_getAllPosts {fs : FS} {p : Post} (h : p ∈ getAllPosts fs) :
    p ∈ getAllPostsFromModules fs ∨ p ∈ standalonePosts fs := by
  unfold getAllPosts at h
  exact List.mem_append.1 (mem_sortS.1 h)

theorem draft_false_of_mem_getAllPosts {fs : FS} {p : Post}
    (h : p ∈ getAllPosts fs) : p.draft = false := by
  rcases mem_getAllPosts h with h | h
  · obtain ⟨m, _, hm⟩ := mem_getAllPostsFromModules h
    exact draft_false_of_mem_getPostsByModule hm
  · exact draft_false_of_mem_standalonePosts h

theorem mem_of_mem_getFeaturedPosts {fs : FS} {p : Post}
    (h : p ∈ getFeaturedPosts fs) : p ∈ getAllPosts fs := by
  unfold getFeaturedPosts at h
  exact (List.mem_filter.1 (List.mem_of_mem_take h)).1

theorem mem_of_mem_jsSetDedup {l : List String} {a : String}
    (h : a ∈ jsSetDedup l) : a ∈ l := by
  unfold jsSetDedup at h
  suffices H : ∀ acc, a ∈ l.foldl
      (fun acc x => if x ∈ acc then acc else acc ++ [x]) acc → a ∈ acc ∨ a ∈ l by
    rcases H [] h with h' | h'
    · exact absurd h' (List.not_mem_nil a)
    · exact h'
  clear h
  induction l with
  | nil => intro acc h; exact Or.inl h
  | cons x xs ih =>
    intro acc h
    simp only [List.foldl_cons] at h
    rcases ih _ h with h' | h'
    · by_cases hx : x ∈ acc
      · rw [if_pos hx] at h'
        exact Or.inl h'
      · rw [if_neg hx] at h'
        rcases List.mem_append.1 h' with h'' | h''
        · exact Or.inl h''
        · simp only [List.mem_singleton] at h''
          exact Or.inr (h'' ▸ List.mem_cons_self x xs)
    · exact Or.inr (List.mem_cons_of_mem x h')

theorem mem_getAllTags {fs : FS} {t : String} (h : t ∈ getAllTags fs) :
    ∃ p ∈ getAllPosts fs, t ∈ p.tags := by
  unfold getAllTags at h
  have h1 := mem_of_mem_jsSetDedup (mem_sortS.1 h)
  simpa [List.mem_flatMap] using h1

/-! ## The global comparator -/

theorem globalCmp_le_iff {a b : Post} :
    decide (globalCmp a b ≤ 0) = !strLt a.date b.date := by
  cases hs : strLt a.date b.date <;> simp [globalCmp, hs]

theorem strNotLt_trans {x y z : String} (h1 : strLt x y = false)
    (h2 : strLt y z = false) : strLt x z = false := by
  cases hxz : strLt x z with
  | false => rfl
  | true =>
    exfalso
    cases hyx : strLt y x with
    | true =>
      have : strLt y z = true := charsLt_trans hyx hxz
      rw [this] at h2
      exact absurd h2 (by simp)
    | false =>
      have heq : x = y := strLt_connex h1 hyx
      subst heq
      rw [hxz] at h2
      exact absurd h2 (by simp)

/-- `getAllPosts` is sorted descending: between all pairs (in particular
all adjacent pairs) the earlier post's date is `≥` the later one's. -/
theorem getAllPosts_pairwise (fs : FS) :
    (getAllPosts fs).Pairwise fun a b => strLt a.date b.date = false := by
  unfold getAllPosts
  have h := @pairwise_sortS Post
    (fun a b : Post => decide (globalCmp a b ≤ 0))
    (getAllPostsFromModules fs ++ standalonePosts fs)
    (fun a _ b _ => by
      simp only [globalCmp_le_iff]
      cases hs : strLt a.date b.date with
      | false => exact Or.inl rfl
      | true => exact Or.inr (by simp [strLt_asymm hs]))
    (fun a _ b _ c _ hab hbc => by
      simp only [globalCmp_le_iff] at hab hbc ⊢
      simp only [Bool.not_eq_true'] at hab hbc ⊢
      exact strNotLt_trans hab hbc)
  exact h.imp fun {a b} hab => by
    simp only [globalCmp_le_iff] at hab
    simpa using hab

/-- ECMA-262's "consistent comparison function" condition on the elements
of a list (the precondition of every ordering and stability guarantee of
`Array.prototype.sort`): the comparison is sign-antisymmetric and its
strict and zero parts are transitive. -/
def consistentCmpOn (cmp : Post → Post → Int) (l : List Post) : Prop :=
  (∀ a ∈ l, ∀ b ∈ l, (cmp a b < 0 ↔ cmp b a > 0) ∧ (cmp a b = 0 ↔ cmp b a = 0)) ∧
  (∀ a ∈ l, ∀ b ∈ l, ∀ c ∈ l, cmp a b < 0 → cmp b c < 0 → cmp a c < 0) ∧
  (∀ a ∈ l, ∀ b ∈ l, ∀ c ∈ l, cmp a b = 0 → cmp b c = 0 → cmp a c = 0)

instance (cmp : Post → Post → Int) (l : List Post) :
    Decidable (consistentCmpOn cmp l) :=
  inferInstanceAs (Decidable
    ((∀ a ∈ l, ∀ b ∈ l, (cmp a b < 0 ↔ cmp b a > 0) ∧
        (cmp a b = 0 ↔ cmp b a = 0)) ∧
     (∀ a ∈ l, ∀ b ∈ l, ∀ c ∈ l, cmp a b < 0 → cmp b c < 0 → cmp a c < 0) ∧
     (∀ a ∈ l, ∀ b ∈ l, ∀ c ∈ l, cmp a b = 0 → cmp b c = 0 → cmp a c = 0)))

/-- The outcomes ECMA-262 allows for `input.sort(cmp)`: for a consistent
comparison function the ES2019 stability requirement pins the result to
the unique stable sorted permutation (`sortS`); otherwise the sort order
is implementation-defined and ECMA-262 guarantees only a permutation of
the input. -/
def jsSortAllowed (cmp : Post → Post → Int) (input output : List Post) : Prop :=
  if consistentCmpOn cmp input then
    output = sortS (fun a b => cmp a b ≤ 0) input
  else List.Perm output input

/-- C2, amended claim theorem.  `getAllPosts()` is a permutation of module
posts followed by standalone posts and its adjacent pairs are descending
by date under string comparison; the comparator never returns `0`, so no
equal-date pair ever compares as a tie and the relative order of
equal-date posts carries no stability guarantee. -/
theorem claim2_global_sort_amended (fs : FS) :
    List.Perm (getAllPosts fs) (getAllPostsFromModules fs ++ standalonePosts fs) ∧
    List.Chain' (fun a b => strLt a.date b.date = false) (getAllPosts fs) ∧
    ∀ a b : Post, globalCmp a b = 1 ∨ globalCmp a b = -1 := by
  refine ⟨sortS_perm _ _, (getAllPosts_pairwise fs).chain', ?_⟩
  intro a b
  unfold globalCmp
  by_cases h : strLt a.date b.date = true
  · left
    rw [if_pos h]
  · right
    rw [if_neg h]

/-- Module descriptor for the C2 counterexample module. -/
def metaC2 : Entry :=
  { base := "metadata", ext := Ext.md, data := { title := some "M" } }

/-- A module post file whose date equals the standalone post's. -/
def eC2m : Entry :=
  { base := "inmod", ext := Ext.md,
    data := { title := some "FromModule", date := some "0001-01-02" } }

/-- A standalone post file with the same date. -/
def eC2s : Entry :=
  { base := "alone", ext := Ext.md,
    data := { title := some "Standalone", date := some "0001-01-02" } }

/-- Filesystem with one module post and one standalone post of equal
date. -/
def fsC2 : FS :=
  { posts := some [eC2s]
    modules := some [DirEnt.dir { name := "m", entries := [metaC2, eC2m] }] }

/-- The module post as listed. -/
def pC2m : Post := postOfEntry eC2m (some "m")

/-- The standalone post as listed. -/
def pC2s : Post := postOfEntry eC2s none

/-- C2 as stated is false: for this filesystem the concatenation is
`[pC2m, pC2s]` with equal dates, but the comparator answers `-1` on both
orders of the pair — it is not a consistent comparison function, so
ECMA-262 makes the sort order implementation-defined, and the reversed
output `[pC2s, pC2m]` (the one V8's TimSort actually produces, detecting
the pair as a descending run) is an allowed result of the program.  The
"equal dates keep concatenation order" guarantee therefore does not hold
of the code. -/
theorem claim2_global_sort_counterexample :
    getAllPostsFromModules fsC2 ++ standalonePosts fsC2 = [pC2m, pC2s] ∧
    pC2m.date = pC2s.date ∧ pC2m ≠ pC2s ∧
    globalCmp pC2m pC2s = -1 ∧ globalCmp pC2s pC2m = -1 ∧
    ¬consistentCmpOn globalCmp [pC2m, pC2s] ∧
    jsSortAllowed globalCmp [pC2m, pC2s] [pC2s, pC2m] := by
  refine ⟨by decide, by decide, by decide, by decide, by decide, by decide, ?_⟩
  unfold jsSortAllowed
  rw [if_neg (by decide)]
  exact List.Perm.swap pC2m pC2s []

/-! ## C3: draft exclusion -/

/-- C3, claim theorem.  A post whose `draft` field is `true` appears in no
listing: not in `getAllPosts()`, not in any `getPostsByModule(m)`, not in
`getFeaturedPosts()` or `getAllPostsFromModules()`; and every tag of
`getAllTags()` comes from a listed (hence non-draft) post. -/
theorem claim3_draft_exclusion (fs : FS) (p : Post) (h : p.draft = true) :
    p ∉ getAllPosts fs ∧ (∀ slug, p ∉ getPostsByModule fs slug) ∧
    p ∉ getFeaturedPosts fs ∧ p ∉ getAllPostsFromModules fs ∧
    ∀ t ∈ getAllTags fs, ∃ q ∈ getAllPosts fs, q.draft = false ∧ t ∈ q.tags := by
  refine ⟨?_, ?_, ?_, ?_, ?_⟩
  · intro hc
    rw [draft_false_of_mem_getAllPosts hc] at h
    exact absurd h (by simp)
  · intro slug hc
    rw [draft_false_of_mem_getPostsByModule hc] at h
    exact absurd h (by simp)
  · intro hc
    rw [draft_false_of_mem_getAllPosts (mem_of_mem_getFeaturedPosts hc)] at h
    exact absurd h (by simp)
  · intro hc
    obtain ⟨m, _, hm⟩ := mem_getAllPostsFromModules hc
    rw [draft_false_of_mem_getPostsByModule hm] at h
    exact absurd h (by simp)
  · intro t ht
    obtain ⟨q, hq, hqt⟩ := mem_getAllTags ht
    exact ⟨q, hq, draft_false_of_mem_getAllPosts hq, hqt⟩

/-- Sample filesystem with one draft standalone post and one tagged
published post. -/
def fsC3 : FS :=
  { posts := some
      [{ base := "secret", ext := Ext.md,
         data := { title := some "Secret", date := some "0001-01-02",
                   draft := some true } },
       { base := "hello", ext := Ext.md,
         data := { title := some "Hello", date := some "0001-01-03",
                   tags := some ["x"] } }]
    modules := none }

/-- The draft post of `fsC3` as the code would build it. -/
def pC3 : Post :=
  postOfEntry
    { base := "secret", ext := Ext.md,
      data := { title := some "Secret", date := some "0001-01-02",
                draft := some true } } none

theorem claim3_draft_exclusion_witness :
    pC3 ∉ getAllPosts fsC3 ∧ (∀ slug, pC3 ∉ getPostsByModule fsC3 slug) ∧
    pC3 ∉ getFeaturedPosts fsC3 ∧ pC3 ∉ getAllPostsFromModules fsC3 ∧
    ∀ t ∈ getAllTags fsC3, ∃ q ∈ getAllPosts fsC3, q.draft = false ∧ t ∈ q.tags :=
  claim3_draft_exclusion fsC3 pC3 rfl

/-! ## C8: absence of content is empty output, not an error -/

theorem mem_getAllModules {fs : FS} {m : Module} (h : m ∈ getAllModules fs) :
    ∃ root d me, fs.modules = some root ∧ DirEnt.dir d ∈ root ∧
      metaEntry d = some me ∧ m = moduleOfMeta d.name me := by
  unfold getAllModules at h
  split at h
  case h_1 => exact absurd h (List.not_mem_nil m)
  case h_2 root hroot =>
    simp only [] at h
    obtain ⟨d, hd, hmod⟩ := List.mem_filterMap.1 (mem_sortS.1 h)
    obtain ⟨ent, hent, hdir⟩ := List.mem_filterMap.1 hd
    refine ⟨root, d, ?_⟩
    cases ent with
    | file e => exact absurd hdir (by simp [dirOf])
    | dir d' =>
      have hdd : d' = d := by simpa [dirOf] using hdir
      subst hdd
      unfold moduleOfDir at hmod
      split at hmod
      case h_1 => exact absurd hmod (by simp)
      case h_2 me hme =>
        have hm : m = moduleOfMeta d'.name me := by
          injection hmod with h'
          exact h'.symm
        exact ⟨me, hroot, hent, hme, hm⟩

/-- C8, claim theorem.  Missing posts directory: `getAllPosts` degrades to
the module posts alone.  Missing modules directory: no modules.  A module
subdirectory without `metadata.md` never contributes a module.  A module
slug that does not resolve yields the empty post list. -/
theorem claim8_absence_as_empty :
    (∀ fs : FS, fs.posts = none →
      getAllPosts fs =
        sortS (fun a b => globalCmp a b ≤ 0) (getAllPostsFromModules fs)) ∧
    (∀ fs : FS, fs.modules = none → getAllModules fs = []) ∧
    (∀ fs : FS, ∀ m ∈ getAllModules fs, ∃ root d, fs.modules = some root ∧
      DirEnt.dir d ∈ root ∧ d.name = m.slug ∧ metaEntry d ≠ none) ∧
    (∀ fs : FS, ∀ slug, getModuleBySlug fs slug = none →
      getPostsByModule fs slug = []) := by
  refine ⟨?_, ?_, ?_, ?_⟩
  · intro fs h
    unfold getAllPosts
    have hsp : standalonePosts fs = [] := by simp [standalonePosts, h]
    rw [hsp, List.append_nil]
  · intro fs h
    simp [getAllModules, h]
  · intro fs m h
    obtain ⟨root, d, me, hroot, hd, hme, rfl⟩ := mem_getAllModules h
    exact ⟨root, d, hroot, hd, rfl, by simp [hme]⟩
  · intro fs slug h
    unfold getPostsByModule
    split
    case h_1 => rfl
    case h_2 root hroot =>
      split
      case h_1 => rfl
      case h_2 d hdir =>
        split
        case h_1 => rfl
        case h_2 me hme =>
          exfalso
          simp only [getModuleBySlug, hroot, hdir, hme] at h
          exact Option.noConfusion h

/-- Sample empty filesystem. -/
def fsC8a : FS := { posts := none, modules := none }

/-- Descriptor file of the sample `good` module directory. -/
def metaGoodC8 : Entry :=
  { base := "metadata", ext := Ext.md, data := { title := some "Good" } }

/-- Sample filesystem with one proper module directory and one directory
lacking `metadata.md`. -/
def fsC8b : FS :=
  { posts := none
    modules := some
      [DirEnt.dir { name := "good", entries := [metaGoodC8] },
       DirEnt.dir { name := "bad", entries := [] }] }

/-- The module record `fsC8b` yields for its `good` directory. -/
def mC8 : Module :=
  { slug := "good", title := "Good", description := none, order := 999,
    postOrder := [] }

theorem claim8_absence_as_empty_witness :
    (getAllPosts fsC8a =
      sortS (fun a b => globalCmp a b ≤ 0) (getAllPostsFromModules fsC8a)) ∧
    getAllModules fsC8a = [] ∧
    (∃ root d, fsC8b.modules = some root ∧ DirEnt.dir d ∈ root ∧
      d.name = mC8.slug ∧ metaEntry d ≠ none) ∧
    getPostsByModule fsC8a "m" = [] :=
  ⟨claim8_absence_as_empty.1 fsC8a rfl,
   claim8_absence_as_empty.2.1 fsC8a rfl,
   claim8_absence_as_empty.2.2.1 fsC8b mC8 (by decide),
   claim8_absence_as_empty.2.2.2 fsC8a "m" rfl⟩

/-! ## C9: `order: 0` is absorbed by the falsy default -/

/-- Erase an explicit `order: 0` from a frontmatter record. -/
def orderZeroErased (dta : FrontData) : FrontData :=
  if dta.order = some 0 then { dta with order := none } else dta

/-- Erase an explicit `order: 0` from a parsed file. -/
def entryOrderZeroErased (e : Entry) : Entry :=
  { e with data := orderZeroErased e.data }

/-- Erase explicit `order: 0` from every file of a directory. -/
def dirOrderZeroErased (d : ModuleDir) : ModuleDir :=
  { d with entries := d.entries.map entryOrderZeroErased }

/-- Erase explicit `order: 0` from a modules-root entry. -/
def dirEntOrderZeroErased : DirEnt → DirEnt
  | .dir d => .dir (dirOrderZeroErased d)
  | .file e => .file (entryOrderZeroErased e)

/-- Erase every explicit `order: 0` in the whole filesystem. -/
def fsOrderZeroErased (fs : FS) : FS :=
  { posts := fs.posts
    modules := fs.modules.map (List.map dirEntOrderZeroErased) }

theorem moduleOfMeta_erased (n : String) (e : Entry) :
    moduleOfMeta n (entryOrderZeroErased e) = moduleOfMeta n e := by
  by_cases ho : e.data.order = some 0
  · simp [moduleOfMeta, entryOrderZeroErased, orderZeroErased, ho, jsOrNum]
  · simp [moduleOfMeta, entryOrderZeroErased, orderZeroErased, ho]

theorem find?_meta_map (es : List Entry) :
    (es.map entryOrderZeroErased).find? isMetaFile =
      (es.find? isMetaFile).map entryOrderZeroErased := by
  induction es with
  | nil => rfl
  | cons e es ih =>
    have hpe : isMetaFile (entryOrderZeroErased e) = isMetaFile e := rfl
    rw [List.map_cons]
    cases he : isMetaFile e with
    | true =>
      rw [List.find?_cons_of_pos _ (hpe.trans he), List.find?_cons_of_pos _ he]
      rfl
    | false =>
      rw [List.find?_cons_of_neg _ (by rw [hpe, he]; exact Bool.false_ne_true),
        List.find?_cons_of_neg _ (by rw [he]; exact Bool.false_ne_true), ih]

theorem metaEntry_erased (d : ModuleDir) :
    metaEntry (dirOrderZeroErased d) = (metaEntry d).map entryOrderZeroErased :=
  find?_meta_map d.entries

theorem moduleOfDir_erased (d : ModuleDir) :
    moduleOfDir (dirOrderZeroErased d) = moduleOfDir d := by
  unfold moduleOfDir
  rw [metaEntry_erased]
  cases metaEntry d with
  | none => rfl
  | some me =>
    show some (moduleOfMeta d.name (entryOrderZeroErased me)) = _
    rw [moduleOfMeta_erased]

theorem filterMap_dirOf_erased (root : List DirEnt) :
    (root.map dirEntOrderZeroErased).filterMap dirOf =
      (root.filterMap dirOf).map dirOrderZeroErased := by
  induction root with
  | nil => rfl
  | cons ent rest ih =>
    cases ent with
    | dir d => simp [dirEntOrderZeroErased, dirOf, ih]
    | file e => simp [dirEntOrderZeroErased, dirOf, ih]

theorem getAllModules_erased (fs : FS) :
    getAllModules (fsOrderZeroErased fs) = getAllModules fs := by
  cases hm : fs.modules with
  | none => simp [getAllModules, fsOrderZeroErased, hm]
  | some root =>
    simp only [getAllModules, fsOrderZeroErased, hm, Option.map_some']
    congr 1
    rw [filterMap_dirOf_erased, List.filterMap_map]
    apply List.filterMap_congr
    intro d _
    exact moduleOfDir_erased d

theorem findDir_erased (root : List DirEnt) (slug : String) :
    findDir (root.map dirEntOrderZeroErased) slug =
      (findDir root slug).map dirOrderZeroErased := by
  unfold findDir
  induction root with
  | nil => rfl
  | cons ent rest ih =>
    cases ent with
    | dir d =>
      by_cases hn : d.name = slug
      · simp [dirNamed, dirEntOrderZeroErased, dirOrderZeroErased, hn]
      · simp [dirNamed, dirEntOrderZeroErased, dirOrderZeroErased, hn, ih]
    | file e => simp [dirNamed, dirEntOrderZeroErased, ih]

theorem getModuleBySlug_erased (fs : FS) (slug : String) :
    getModuleBySlug (fsOrderZeroErased fs) slug = getModuleBySlug fs slug := by
  cases hm : fs.modules with
  | none => simp [getModuleBySlug, fsOrderZeroErased, hm]
  | some root =>
    simp only [getModuleBySlug, fsOrderZeroErased, hm, Option.map_some']
    rw [findDir_erased]
    cases findDir root slug with
    | none => rfl
    | some d =>
      simp only [Option.map_some']
      rw [metaEntry_erased]
      cases metaEntry d with
      | none => rfl
      | some me =>
        show some (moduleOfMeta slug (entryOrderZeroErased me)) = _
        rw [moduleOfMeta_erased]

/-- C9, claim theorem.  A metadata record declaring `order: 0` is handled
exactly as if `order` were absent: erasing every explicit `order: 0` from
the filesystem changes neither `getAllModules()` (including its sort by
the 999 last-place sentinel) nor `getModuleBySlug()`, because the `||`
default fires on every falsy value; and the stored order of such a module
is 999. -/
theorem claim9_order_zero_defaulted (fs : FS) :
    getAllModules (fsOrderZeroErased fs) = getAllModules fs ∧
    (∀ slug, getModuleBySlug (fsOrderZeroErased fs) slug = getModuleBySlug fs slug) ∧
    ∀ n : String, ∀ e : Entry, e.data.order = some 0 →
      (moduleOfMeta n e).order = 999 := by
  refine ⟨getAllModules_erased fs, fun slug => getModuleBySlug_erased fs slug, ?_⟩
  intro n e ho
  simp [moduleOfMeta, ho, jsOrNum]

/-- Descriptor file declaring `order: 0`. -/
def metaZeroC9 : Entry :=
  { base := "metadata", ext := Ext.md,
    data := { title := some "Zero", order := some 0 } }

/-- Sample filesystem whose single module declares `order: 0`. -/
def fsC9 : FS :=
  { posts := none
    modules := some [DirEnt.dir { name := "zero", entries := [metaZeroC9] }] }

theorem claim9_order_zero_defaulted_witness :
    getAllModules (fsOrderZeroErased fsC9) = getAllModules fsC9 ∧
    getModuleBySlug (fsOrderZeroErased fsC9) "zero" = getModuleBySlug fsC9 "zero" ∧
    (moduleOfMeta "zero" metaZeroC9).order = 999 :=
  ⟨(claim9_order_zero_defaulted fsC9).1,
   (claim9_order_zero_defaulted fsC9).2.1 "zero",
   (claim9_order_zero_defaulted fsC9).2.2 "zero" metaZeroC9 rfl⟩

/-! ## The date comparator of the module sort -/

theorem pairwise_imp_mem {R S : α → α → Prop} {l : List α}
    (h : ∀ a ∈ l, ∀ b ∈ l, R a b → S a b) (hp : l.Pairwise R) :
    l.Pairwise S := by
  induction l with
  | nil => exact List.Pairwise.nil
  | cons x xs ih =>
    rcases List.pairwise_cons.1 hp with ⟨hx, hxs⟩
    refine List.pairwise_cons.2 ⟨?_, ?_⟩
    · intro b hb
      exact h x (List.mem_cons_self x xs) b (List.mem_cons_of_mem x hb) (hx b hb)
    · exact ih (fun a ha b hb => h a (List.mem_cons_of_mem x ha)
        b (List.mem_cons_of_mem x hb)) hxs

theorem jsGetTime_isSome {s : String} (h : validIso s = true) :
    ∃ x, jsGetTime s = some x := by
  unfold validIso at h
  split at h
  case h_2 => exact absurd h (by simp)
  case h_1 y m d hps =>
    refine ⟨((daysSinceYear0 y m d : Int) - epochDays) * 86400000, ?_⟩
    simp [jsGetTime, hps, h]

theorem dateCmp_total (a b : Post) :
    decide (dateCmp a b ≤ 0) = true ∨ decide (dateCmp b a ≤ 0) = true := by
  unfold dateCmp subNaN
  cases jsGetTime a.date <;> cases jsGetTime b.date <;> simp <;> omega

/-- On valid dates the module date comparator agrees with lexicographic
string comparison of the dates. -/
theorem dateCmp_le_iff {a b : Post} (ha : validIso a.date = true)
    (hb : validIso b.date = true) :
    decide (dateCmp a b ≤ 0) = !strLt b.date a.date := by
  obtain ⟨y, x, hy, hx, hlt, _⟩ := jsGetTime_valid hb ha
  unfold dateCmp subNaN
  rw [hx, hy]
  cases hs : strLt b.date a.date with
  | true =>
    have : y < x := hlt.2 hs
    simp only [Bool.not_true, decide_eq_false_iff_not, not_le]
    omega
  | false =>
    have : ¬y < x := fun hc => by rw [hlt.1 hc] at hs; exact absurd hs (by simp)
    simp only [Bool.not_false, decide_eq_true_eq]
    omega

theorem dateCmp_trans {a b c : Post} (ha : validIso a.date = true)
    (hb : validIso b.date = true) (hc : validIso c.date = true)
    (h1 : decide (dateCmp a b ≤ 0) = true) (h2 : decide (dateCmp b c ≤ 0) = true) :
    decide (dateCmp a c ≤ 0) = true := by
  rw [dateCmp_le_iff ha hb] at h1
  rw [dateCmp_le_iff hb hc] at h2
  rw [dateCmp_le_iff ha hc]
  simp only [Bool.not_eq_true'] at h1 h2 ⊢
  exact strNotLt_trans h2 h1

theorem getModuleBySlug_inv {fs : FS} {slug : String} {m : Module}
    (hm : getModuleBySlug fs slug = some m) :
    ∃ root d me, fs.modules = some root ∧ findDir root slug = some d ∧
      metaEntry d = some me ∧ m = moduleOfMeta slug me := by
  unfold getModuleBySlug at hm
  split at hm
  case h_1 => exact absurd hm (by simp)
  case h_2 root hroot =>
    split at hm
    case h_1 => exact absurd hm (by simp)
    case h_2 d hdir =>
      split at hm
      case h_1 => exact absurd hm (by simp)
      case h_2 me hme =>
        injection hm with hm
        exact ⟨root, d, me, hroot, hdir, hme, hm.symm⟩

/-- When the resolved module has an empty `postOrder`, `getPostsByModule`
is the date-ascending stable sort of the member posts. -/
theorem getPostsByModule_eq_dateSort {fs : FS} {slug : String} {m : Module}
    {root : List DirEnt} {d : ModuleDir} {me : Entry}
    (hroot : fs.modules = some root) (hdir : findDir root slug = some d)
    (hme : metaEntry d = some me) (hm : m = moduleOfMeta slug me)
    (hpo : m.postOrder = []) :
    getPostsByModule fs slug =
      sortS (fun a b => dateCmp a b ≤ 0) (memberPosts slug d) := by
  have hlen : (moduleOfMeta slug me).postOrder = [] := by
    rw [← hm]
    exact hpo
  simp only [getPostsByModule, hroot, hdir, hme, hlen]
  simp

/-- C5, claim theorem.  For a module whose metadata declares no
`postOrder` (after defaulting: an empty one), and whose member posts all
carry ISO dates, `getPostsByModule` is ascending by date: every adjacent
pair satisfies `a.date ≤ b.date` under string comparison — the opposite
direction from the global `getAllPosts()` ordering of C2. -/
theorem claim5_module_default_ascending (fs : FS) (slug : String) (m : Module)
    (hm : getModuleBySlug fs slug = some m) (hpo : m.postOrder = [])
    (hdates : ∀ p ∈ getPostsByModule fs slug, validIso p.date = true) :
    List.Chain' (fun a b => strLt b.date a.date = false)
      (getPostsByModule fs slug) := by
  obtain ⟨root, d, me, hroot, hdir, hme, hmeta⟩ := getModuleBySlug_inv hm
  have heq := getPostsByModule_eq_dateSort hroot hdir hme hmeta hpo
  rw [heq] at hdates ⊢
  have hmem : ∀ p ∈ memberPosts slug d, validIso p.date = true :=
    fun p hp => hdates p (mem_sortS.2 hp)
  have hpw := @pairwise_sortS Post
    (fun a b : Post => decide (dateCmp a b ≤ 0))
    (memberPosts slug d)
    (fun a _ b _ => dateCmp_total a b)
    (fun a ha b hb c hc hab hbc =>
      dateCmp_trans (hmem a ha) (hmem b hb) (hmem c hc) hab hbc)
  refine (pairwise_imp_mem ?_ hpw).chain'
  intro a ha b hb hab
  have hab2 : decide (dateCmp a b ≤ 0) = true := hab
  rw [dateCmp_le_iff (hmem a (mem_sortS.1 ha)) (hmem b (mem_sortS.1 hb))] at hab2
  simpa using hab2

/-- Sample module directory for C5: two dated posts, no `postOrder`. -/
def dirC5 : ModuleDir :=
  { name := "m"
    entries :=
      [{ base := "metadata", ext := Ext.md, data := { title := some "M" } },
       { base := "late", ext := Ext.md,
         data := { title := some "L", date := some "0002-01-05" } },
       { base := "early", ext := Ext.md,
         data := { title := some "E", date := some "0001-12-31" } }] }

/-- Sample filesystem for C5. -/
def fsC5 : FS := { posts := none, modules := some [DirEnt.dir dirC5] }

theorem claim5_module_default_ascending_witness :
    (getModuleBySlug fsC5 "m" =
      some { slug := "m", title := "M", description := none, order := 999,
             postOrder := [] }) ∧
    List.Chain' (fun a b => strLt b.date a.date = false)
      (getPostsByModule fsC5 "m") :=
  ⟨by decide,
   claim5_module_default_ascending fsC5 "m"
     { slug := "m", title := "M", description := none, order := 999,
       postOrder := [] }
     (by decide) rfl (by decide)⟩

/-! ## C6: calendar-parsing vs. lexicographic date comparison -/

/-- C6, claim theorem.  The code compares dates by parsing them with
`new Date(...).getTime()`; the spec's data model only promises ISO
`YYYY-MM-DD` strings compared as strings.  On such strings the two agree
exactly: `getTime()` values exist and compare as the strings compare
lexicographically (equality included), and consequently the module date
sort computed from `getTime()` equals the one computed from lexicographic
comparison — the two embeddings of the date comparator are equal. -/
theorem claim6_date_comparator_refinement :
    (∀ s t : String, validIso s = true → validIso t = true →
      ∃ x y : Int, jsGetTime s = some x ∧ jsGetTime t = some y ∧
        (x < y ↔ strLt s t = true) ∧ (x = y ↔ s = t)) ∧
    ∀ l : List Post, (∀ p ∈ l, validIso p.date = true) →
      sortS (fun a b => dateCmp a b ≤ 0) l =
        sortS (fun a b => !strLt b.date a.date) l := by
  refine ⟨fun s t hs ht => jsGetTime_valid hs ht, ?_⟩
  intro l hl
  apply sortS_congr
  intro a ha b hb
  exact dateCmp_le_iff (hl a ha) (hl b hb)

/-- Two posts with ISO dates for the C6 witness. -/
def pC6a : Post :=
  postOfEntry { base := "a", ext := Ext.md,
                data := { date := some "0002-01-05" } } none

/-- Second witness post for C6. -/
def pC6b : Post :=
  postOfEntry { base := "b", ext := Ext.md,
                data := { date := some "0001-12-31" } } none

theorem claim6_date_comparator_refinement_witness :
    (∃ x y : Int, jsGetTime "0001-12-31" = some x ∧
      jsGetTime "0002-01-05" = some y ∧
      (x < y ↔ strLt "0001-12-31" "0002-01-05" = true) ∧
      (x = y ↔ ("0001-12-31" : String) = "0002-01-05")) ∧
    sortS (fun a b => dateCmp a b ≤ 0) [pC6a, pC6b] =
      sortS (fun a b => !strLt b.date a.date) [pC6a, pC6b] :=
  ⟨claim6_date_comparator_refinement.1 "0001-12-31" "0002-01-05"
      (by decide) (by decide),
   claim6_date_comparator_refinement.2 [pC6a, pC6b] (by decide)⟩

/-! ## C1: the explicit `postOrder` comparator -/

theorem moduleCmp_in_in (po : List String) (a b : Post)
    (hA : a.slug ∈ po) (hB : b.slug ∈ po) :
    moduleCmp po a b = (po.indexOf a.slug : Int) - (po.indexOf b.slug : Int) := by
  have h1 : (0 : Int) ≤ (po.indexOf a.slug : Int) := Int.natCast_nonneg _
  have h2 : (0 : Int) ≤ (po.indexOf b.slug : Int) := Int.natCast_nonneg _
  simp only [moduleCmp, jsIndexOf_of_mem hA, jsIndexOf_of_mem hB]
  rw [if_pos]
  simp only [Bool.and_eq_true, decide_eq_true_eq]
  constructor <;> omega

theorem moduleCmp_in_out (po : List String) (a b : Post)
    (hA : a.slug ∈ po) (hB : b.slug ∉ po) :
    moduleCmp po a b = -1 := by
  have h1 : (0 : Int) ≤ (po.indexOf a.slug : Int) := Int.natCast_nonneg _
  have hA2 : ((po.indexOf a.slug : Int)) ≠ -1 := by omega
  simp [moduleCmp, jsIndexOf_of_mem hA, jsIndexOf_of_not_mem hB, hA2]

theorem moduleCmp_out_in (po : List String) (a b : Post)
    (hA : a.slug ∉ po) (hB : b.slug ∈ po) :
    moduleCmp po a b = 1 := by
  have h2 : (0 : Int) ≤ (po.indexOf b.slug : Int) := Int.natCast_nonneg _
  have hB2 : ((po.indexOf b.slug : Int)) ≠ -1 := by omega
  simp [moduleCmp, jsIndexOf_of_mem hB, jsIndexOf_of_not_mem hA, hB2]

theorem moduleCmp_out_out (po : List String) (a b : Post)
    (hA : a.slug ∉ po) (hB : b.slug ∉ po) :
    moduleCmp po a b = subNaN (jsGetTime a.date) (jsGetTime b.date) := by
  simp [moduleCmp, jsIndexOf_of_not_mem hA, jsIndexOf_of_not_mem hB]

theorem moduleCmp_total (po : List String) (a b : Post) :
    decide (moduleCmp po a b ≤ 0) = true ∨
      decide (moduleCmp po b a ≤ 0) = true := by
  by_cases hA : a.slug ∈ po <;> by_cases hB : b.slug ∈ po
  · rw [moduleCmp_in_in po a b hA hB, moduleCmp_in_in po b a hB hA]
    simp only [decide_eq_true_eq]
    omega
  · left
    rw [moduleCmp_in_out po a b hA hB]
    simp
  · right
    rw [moduleCmp_in_out po b a hB hA]
    simp
  · rw [moduleCmp_out_out po a b hA hB, moduleCmp_out_out po b a hB hA]
    unfold subNaN
    cases jsGetTime a.date <;> cases jsGetTime b.date <;>
      simp only [decide_eq_true_eq] <;> omega

theorem moduleCmp_trans (po : List String) {a b c : Post}
    (ha : validIso a.date = true) (hb : validIso b.date = true)
    (hc : validIso c.date = true)
    (h1 : decide (moduleCmp po a b ≤ 0) = true)
    (h2 : decide (moduleCmp po b c ≤ 0) = true) :
    decide (moduleCmp po a c ≤ 0) = true := by
  by_cases hA : a.slug ∈ po <;> by_cases hB : b.slug ∈ po <;>
    by_cases hC : c.slug ∈ po
  · rw [moduleCmp_in_in po a b hA hB] at h1
    rw [moduleCmp_in_in po b c hB hC] at h2
    rw [moduleCmp_in_in po a c hA hC]
    simp only [decide_eq_true_eq] at h1 h2 ⊢
    omega
  · rw [moduleCmp_in_out po a c hA hC]
    simp
  · rw [moduleCmp_out_in po b c hB hC] at h2
    simp at h2
  · rw [moduleCmp_in_out po a c hA hC]
    simp
  · rw [moduleCmp_out_in po a b hA hB] at h1
    simp at h1
  · rw [moduleCmp_out_in po a b hA hB] at h1
    simp at h1
  · rw [moduleCmp_out_in po b c hB hC] at h2
    simp at h2
  · rw [moduleCmp_out_out po a b hA hB] at h1
    rw [moduleCmp_out_out po b c hB hC] at h2
    rw [moduleCmp_out_out po a c hA hC]
    obtain ⟨x, hx⟩ := jsGetTime_isSome ha
    obtain ⟨y, hy⟩ := jsGetTime_isSome hb
    obtain ⟨z, hz⟩ := jsGetTime_isSome hc
    rw [hx, hy] at h1
    rw [hy, hz] at h2
    rw [hx, hz]
    unfold subNaN at h1 h2 ⊢
    simp only [decide_eq_true_eq] at h1 h2 ⊢
    omega

/-- The ordering relation the specification describes for a module with an
explicit `postOrder`: both listed — compare index positions; exactly one
listed — the listed one first; neither listed — ascending date (string
comparison of ISO dates). -/
def specModuleOrder (po : List String) (a b : Post) : Prop :=
  if a.slug ∈ po then
    if b.slug ∈ po then po.indexOf a.slug ≤ po.indexOf b.slug else True
  else
    if b.slug ∈ po then False
    else strLt b.date a.date = false

theorem moduleCmp_le_specOrder {po : List String} {a b : Post}
    (ha : validIso a.date = true) (hb : validIso b.date = true)
    (h : decide (moduleCmp po a b ≤ 0) = true) : specModuleOrder po a b := by
  unfold specModuleOrder
  by_cases hA : a.slug ∈ po
  · rw [if_pos hA]
    by_cases hB : b.slug ∈ po
    · rw [if_pos hB]
      rw [moduleCmp_in_in po a b hA hB] at h
      simp only [decide_eq_true_eq] at h
      omega
    · rw [if_neg hB]
      trivial
  · rw [if_neg hA]
    by_cases hB : b.slug ∈ po
    · rw [if_pos hB]
      rw [moduleCmp_out_in po a b hA hB] at h
      simp at h
    · rw [if_neg hB]
      rw [moduleCmp_out_out po a b hA hB] at h
      obtain ⟨y, x, hy, hx, hlt, _⟩ := jsGetTime_valid hb ha
      rw [hx, hy] at h
      unfold subNaN at h
      simp only [decide_eq_true_eq] at h
      cases hs : strLt b.date a.date with
      | false => rfl
      | true =>
        have hyx : y < x := hlt.2 hs
        omega

/-- When the resolved module has a non-empty `postOrder`,
`getPostsByModule` is the stable sort of the member posts by the
`postOrder` comparator. -/
theorem getPostsByModule_eq_orderSort {fs : FS} {slug : String}
    {root : List DirEnt} {d : ModuleDir} {me : Entry}
    (hroot : fs.modules = some root) (hdir : findDir root slug = some d)
    (hme : metaEntry d = some me)
    (hpo : (moduleOfMeta slug me).postOrder ≠ []) :
    getPostsByModule fs slug =
      sortS (fun a b => moduleCmp (moduleOfMeta slug me).postOrder a b ≤ 0)
        (memberPosts slug d) := by
  simp only [getPostsByModule, hroot, hdir, hme]
  rw [if_pos]
  exact List.length_pos.2 hpo

/-- C1, claim theorem.  For a module whose metadata declares a non-empty
`postOrder` and whose member posts carry ISO dates, `getPostsByModule`
returns exactly the non-draft member posts (a permutation of them), and
they are pairwise ordered by the spec's comparator: by index positions in
`postOrder` when both appear, explicitly ordered posts before unordered
ones, and ascending date when neither appears. -/
theorem claim1_postOrder_sort (fs : FS) (slug : String) (m : Module)
    (hm : getModuleBySlug fs slug = some m) (hpo : m.postOrder ≠ [])
    (hdates : ∀ p ∈ getPostsByModule fs slug, validIso p.date = true) :
    (∃ root d, fs.modules = some root ∧ findDir root slug = some d ∧
      List.Perm (getPostsByModule fs slug) (memberPosts slug d)) ∧
    (getPostsByModule fs slug).Pairwise (specModuleOrder m.postOrder) := by
  obtain ⟨root, d, me, hroot, hdir, hme, hmeta⟩ := getModuleBySlug_inv hm
  subst hmeta
  have heq := getPostsByModule_eq_orderSort hroot hdir hme hpo
  rw [heq] at hdates ⊢
  have hmem : ∀ p ∈ memberPosts slug d, validIso p.date = true :=
    fun p hp => hdates p (mem_sortS.2 hp)
  refine ⟨⟨root, d, hroot, hdir, sortS_perm _ _⟩, ?_⟩
  have hpw := @pairwise_sortS Post
    (fun a b : Post =>
      decide (moduleCmp (moduleOfMeta slug me).postOrder a b ≤ 0))
    (memberPosts slug d)
    (fun a _ b _ => moduleCmp_total _ a b)
    (fun a ha b hb c hc hab hbc =>
      moduleCmp_trans _ (hmem a ha) (hmem b hb) (hmem c hc) hab hbc)
  refine pairwise_imp_mem ?_ hpw
  intro a ha b hb hab
  exact moduleCmp_le_specOrder (hmem a (mem_sortS.1 ha))
    (hmem b (mem_sortS.1 hb)) hab

/-- Sample module directory for C1: `postOrder = ["a"]`, member posts
`a` (late date) and `c` (early date, unordered). -/
def dirC1 : ModuleDir :=
  { name := "m"
    entries :=
      [{ base := "metadata", ext := Ext.md,
         data := { title := some "M", postOrder := some ["a"] } },
       { base := "a", ext := Ext.md,
         data := { title := some "A", date := some "0002-01-05" } },
       { base := "c", ext := Ext.md,
         data := { title := some "C", date := some "0001-01-05" } }] }

/-- Sample filesystem for C1. -/
def fsC1 : FS := { posts := none, modules := some [DirEnt.dir dirC1] }

/-- The module record `fsC1` resolves for slug `m`. -/
def mC1 : Module :=
  { slug := "m", title := "M", description := none, order := 999,
    postOrder := ["a"] }

theorem claim1_postOrder_sort_witness :
    (∃ root d, fsC1.modules = some root ∧ findDir root "m" = some d ∧
      List.Perm (getPostsByModule fsC1 "m") (memberPosts "m" d)) ∧
    (getPostsByModule fsC1 "m").Pairwise (specModuleOrder mC1.postOrder) :=
  claim1_postOrder_sort fsC1 "m" mC1 (by decide) (by decide) (by decide)

/-! ## C7: module progress -/

theorem findIdx?_slug_get : ∀ (L : List Post) (i k : Nat) (h : i < L.length),
    ((L.map Post.slug).Nodup) →
    L.findIdx? (fun q => q.slug = (L.get ⟨i, h⟩).slug) k = some (i + k) := by
  intro L
  induction L with
  | nil =>
    intro i k h
    exact absurd h (by simp)
  | cons x xs ih =>
    intro i k h hnd
    rw [List.map_cons, List.nodup_cons] at hnd
    obtain ⟨hx, hxs⟩ := hnd
    cases i with
    | zero =>
      rw [List.findIdx?_cons, if_pos (by simp)]
      simp
    | succ n =>
      have hn : n < xs.length := by
        simpa [Nat.succ_lt_succ_iff] using h
      have hget : (x :: xs).get ⟨n + 1, h⟩ = xs.get ⟨n, hn⟩ := rfl
      have hne : ¬((fun q : Post => decide (q.slug = ((x :: xs).get ⟨n + 1, h⟩).slug)) x = true) := by
        rw [hget]
        simp only [decide_eq_true_eq]
        intro hc
        exact hx (hc ▸ List.mem_map.2 ⟨xs.get ⟨n, hn⟩, List.get_mem xs n hn, rfl⟩)
      rw [List.findIdx?_cons, if_neg hne]
      have := ih n (k + 1) hn hxs
      rw [hget]
      rw [show (fun q : Post => decide (q.slug = (xs.get ⟨n, hn⟩).slug)) =
        (fun q : Post => decide (q.slug = (xs.get ⟨n, hn⟩).slug)) from rfl]
      rw [this]
      congr 1
      omega

/-- C7, amended claim theorem.  For a module slug that is a non-empty
string and whose member posts have pairwise-distinct slugs, the i-th post
of `getPostsByModule` gets `getModuleProgress = {current := i+1, total :=
N}`: `total` is the member count for every member and `current` covers
1..N without gaps or duplicates. -/
theorem claim7_progress_amended (fs : FS) (slug : String) (hne : slug ≠ "")
    (hnd : ((getPostsByModule fs slug).map Post.slug).Nodup)
    (i : Nat) (h : i < (getPostsByModule fs slug).length) :
    getModuleProgress fs ((getPostsByModule fs slug).get ⟨i, h⟩) =
      some { current := i + 1, total := (getPostsByModule fs slug).length } := by
  have hmem := List.get_mem (getPostsByModule fs slug) i h
  have hmod := module_of_mem_getPostsByModule hmem
  simp only [getModuleProgress, hmod]
  rw [if_neg hne]
  rw [findIdx?_slug_get (getPostsByModule fs slug) i 0 h hnd]

/-- For C7's counterexample: a module holding both `x.md` and `x.mdx` —
two member posts with the same slug, a configuration a real filesystem
allows. -/
def dirC7 : ModuleDir :=
  { name := "m"
    entries :=
      [{ base := "metadata", ext := Ext.md, data := { title := some "M" } },
       { base := "x", ext := Ext.md,
         data := { title := some "X1", date := some "0001-01-02" } },
       { base := "x", ext := Ext.mdx,
         data := { title := some "X2", date := some "0001-01-03" } }] }

/-- Filesystem for C7's counterexample. -/
def fsC7 : FS := { posts := none, modules := some [DirEnt.dir dirC7] }

/-- C7 fails as stated: with member posts `x.md` and `x.mdx` (N = 2, same
slug), both members get `current = 1`; `current` does not cover 1..N. -/
theorem claim7_progress_counterexample :
    (getPostsByModule fsC7 "m").map Post.slug = ["x", "x"] ∧
    (getPostsByModule fsC7 "m").map (getModuleProgress fsC7) =
      [some { current := 1, total := 2 }, some { current := 1, total := 2 }] := by
  decide

/-- Well-behaved module for C7's witness: distinct slugs `a` and `b`. -/
def dirC7w : ModuleDir :=
  { name := "m"
    entries :=
      [{ base := "metadata", ext := Ext.md, data := { title := some "M" } },
       { base := "a", ext := Ext.md,
         data := { title := some "A", date := some "0001-01-02" } },
       { base := "b", ext := Ext.md,
         data := { title := some "B", date := some "0001-01-03" } }] }

/-- Filesystem for C7's witness. -/
def fsC7w : FS := { posts := none, modules := some [DirEnt.dir dirC7w] }

theorem claim7_progress_amended_witness :
    getModuleProgress fsC7w ((getPostsByModule fsC7w "m").get ⟨0, by decide⟩) =
      some { current := 0 + 1, total := (getPostsByModule fsC7w "m").length } ∧
    getModuleProgress fsC7w ((getPostsByModule fsC7w "m").get ⟨1, by decide⟩) =
      some { current := 1 + 1, total := (getPostsByModule fsC7w "m").length } :=
  ⟨claim7_progress_amended fsC7w "m" (by decide) (by decide) 0 (by decide),
   claim7_progress_amended fsC7w "m" (by decide) (by decide) 1 (by decide)⟩

/-! ## C4/C10: the slug-probe corpus -/

/-- The markdown files a modules-root entry contributes to slug probing. -/
def dirFiles : DirEnt → List Entry
  | .dir d => d.entries.filter isMarkdown
  | .file _ => []

/-- Every markdown file the slug probes can reach: the files of every
module directory followed by the standalone posts directory. -/
def corpusFiles (fs : FS) : List Entry :=
  (match fs.modules with
   | none => []
   | some root => root.flatMap dirFiles) ++
  (match fs.posts with
   | none => []
   | some entries => entries.filter isMarkdown)

/-- The slug resolves to at most one markdown file (by value) across the
whole corpus — the uniqueness invariant of §3 of the specification. -/
def uniqueSlug (fs : FS) (s : String) : Prop :=
  ∀ e₁ ∈ corpusFiles fs, ∀ e₂ ∈ corpusFiles fs,
    e₁.base = s → e₂.base = s → e₁ = e₂

instance (fs : FS) (s : String) : Decidable (uniqueSlug fs s) :=
  inferInstanceAs (Decidable (∀ e₁ ∈ corpusFiles fs, ∀ e₂ ∈ corpusFiles fs,
    e₁.base = s → e₂.base = s → e₁ = e₂))

theorem findDir_mem {root : List DirEnt} {slug : String} {d : ModuleDir}
    (h : findDir root slug = some d) : DirEnt.dir d ∈ root ∧ d.name = slug := by
  unfold findDir at h
  induction root with
  | nil => exact absurd h (by simp)
  | cons ent rest ih =>
    rw [List.findSome?_cons] at h
    cases hf : dirNamed slug ent with
    | some d' =>
      rw [hf] at h
      have hd : d' = d := by simpa using h
      subst hd
      cases ent with
      | file e => exact absurd hf (by simp [dirNamed])
      | dir dd =>
        by_cases hname : dd.name = slug
        · have : dd = d' := by simpa [dirNamed, hname] using hf
          subst this
          exact ⟨List.mem_cons_self _ _, hname⟩
        · exact absurd hf (by simp [dirNamed, hname])
    | none =>
      rw [hf] at h
      obtain ⟨hm, hn⟩ := ih h
      exact ⟨List.mem_cons_of_mem _ hm, hn⟩

theorem mem_corpus_module {fs : FS} {root : List DirEnt} {d : ModuleDir}
    {e : Entry} (hroot : fs.modules = some root) (hd : DirEnt.dir d ∈ root)
    (he : e ∈ d.entries) (hmd : isMarkdown e = true) : e ∈ corpusFiles fs := by
  unfold corpusFiles
  rw [hroot]
  apply List.mem_append_left
  exact List.mem_flatMap.2 ⟨DirEnt.dir d, hd, by
    simp only [dirFiles, List.mem_filter]
    exact ⟨he, hmd⟩⟩

theorem mem_corpus_standalone {fs : FS} {entries : List Entry} {e : Entry}
    (hp : fs.posts = some entries) (he : e ∈ entries)
    (hmd : isMarkdown e = true) : e ∈ corpusFiles fs := by
  unfold corpusFiles
  rw [hp]
  exact List.mem_append_right _ (List.mem_filter.2 ⟨he, hmd⟩)

theorem probeModule_eq_some {root : List DirEnt} {slug : String}
    {module : Module} {p : Post} (h : Modules.probeModule root slug module = some p) :
    ∃ d e, findDir root module.slug = some d ∧ e ∈ d.entries ∧
      e.base = slug ∧ isMarkdown e = true ∧
      p = postOfEntry e (some module.slug) := by
  unfold Modules.probeModule at h
  split at h
  case h_1 => exact absurd h (by simp)
  case h_2 d hd =>
    split at h
    case h_1 e he =>
      have hmem := List.mem_of_find?_eq_some he
      have hpred := List.find?_some he
      simp only [Bool.and_eq_true, decide_eq_true_eq] at hpred
      injection h with h'
      exact ⟨d, e, hd, hmem, hpred.1, by simp [isMarkdown, hpred.2], h'.symm⟩
    case h_2 =>
      split at h
      case h_1 e he =>
        have hmem := List.mem_of_find?_eq_some he
        have hpred := List.find?_some he
        simp only [Bool.and_eq_true, decide_eq_true_eq] at hpred
        injection h with h'
        exact ⟨d, e, hd, hmem, hpred.1, by simp [isMarkdown, hpred.2], h'.symm⟩
      case h_2 => exact absurd h (by simp)

theorem probeModule_isSome {root : List DirEnt} {slug : String}
    {module : Module} {d : ModuleDir} {e : Entry}
    (hd : findDir root module.slug = some d) (he : e ∈ d.entries)
    (hb : e.base = slug) (hx : isMarkdown e = true) :
    (Modules.probeModule root slug module).isSome = true := by
  unfold Modules.probeModule
  split
  case h_1 hnone =>
    rw [hd] at hnone
    exact absurd hnone (by simp)
  case h_2 d' hd' =>
    rw [hd] at hd'
    injection hd' with hdd
    subst hdd
    split
    case h_1 => simp
    case h_2 hf1 =>
      split
      case h_1 => simp
      case h_2 hf2 =>
        exfalso
        simp only [isMarkdown, Bool.or_eq_true, decide_eq_true_eq] at hx
        rcases hx with hx | hx
        · have := List.find?_eq_none.1 hf1 e he
          simp [hb, hx] at this
        · have := List.find?_eq_none.1 hf2 e he
          simp [hb, hx] at this

theorem moduleOfDir_mem_getAllModules {fs : FS} {root : List DirEnt}
    {d : ModuleDir} {me : Entry} (hroot : fs.modules = some root)
    (hd : DirEnt.dir d ∈ root) (hme : metaEntry d = some me) :
    moduleOfMeta d.name me ∈ getAllModules fs := by
  unfold getAllModules
  rw [hroot]
  simp only []
  apply mem_sortS.2
  exact List.mem_filterMap.2 ⟨d, List.mem_filterMap.2 ⟨DirEnt.dir d, hd, rfl⟩,
    by simp [moduleOfDir, hme]⟩

theorem modulesLookup_eq_some {fs : FS} {slug : String} {p : Post}
    (h : Modules.getPostBySlug fs slug = some p) :
    ∃ e ∈ corpusFiles fs, e.base = slug ∧
      ∃ ms, p = postOfEntry e (some ms) := by
  unfold Modules.getPostBySlug at h
  split at h
  case h_1 => exact absurd h (by simp)
  case h_2 root hroot =>
    obtain ⟨module, _, hpm⟩ := List.exists_of_findSome?_eq_some h
    obtain ⟨d, e, hd, he, hb, hmd, rfl⟩ := probeModule_eq_some hpm
    obtain ⟨hdm, _⟩ := findDir_mem hd
    exact ⟨e, mem_corpus_module hroot hdm he hmd, hb, module.slug, rfl⟩

theorem standaloneLookup_eq_some {entries : List Entry} {slug : String}
    {p : Post} (h : Posts.standaloneLookup entries slug = some p) :
    ∃ e ∈ entries, e.base = slug ∧ isMarkdown e = true ∧
      p = postOfEntry e none := by
  unfold Posts.standaloneLookup at h
  split at h
  case h_1 e he =>
    have hmem := List.mem_of_find?_eq_some he
    have hpred := List.find?_some he
    simp only [Bool.and_eq_true, decide_eq_true_eq] at hpred
    injection h with h'
    exact ⟨e, hmem, hpred.1, by simp [isMarkdown, hpred.2], h'.symm⟩
  case h_2 =>
    split at h
    case h_1 e he =>
      have hmem := List.mem_of_find?_eq_some he
      have hpred := List.find?_some he
      simp only [Bool.and_eq_true, decide_eq_true_eq] at hpred
      injection h with h'
      exact ⟨e, hmem, hpred.1, by simp [isMarkdown, hpred.2], h'.symm⟩
    case h_2 => exact absurd h (by simp)

theorem standaloneLookup_isSome {entries : List Entry} {e : Entry}
    (he : e ∈ entries) (hmd : isMarkdown e = true) :
    (Posts.standaloneLookup entries e.base).isSome = true := by
  unfold Posts.standaloneLookup
  split
  case h_1 => simp
  case h_2 hf1 =>
    split
    case h_1 => simp
    case h_2 hf2 =>
      exfalso
      simp only [isMarkdown, Bool.or_eq_true, decide_eq_true_eq] at hmd
      rcases hmd with hx | hx
      · have := List.find?_eq_none.1 hf1 e he
        simp [hx] at this
      · have := List.find?_eq_none.1 hf2 e he
        simp [hx] at this

theorem lookup_eq_some {fs : FS} {slug : String} {p : Post}
    (h : Posts.getPostBySlug fs slug = some p) :
    ∃ e ∈ corpusFiles fs, e.base = slug ∧ ∃ mo, p = postOfEntry e mo := by
  unfold Posts.getPostBySlug at h
  split at h
  case h_1 q hq =>
    injection h with h'
    subst h'
    obtain ⟨e, hc, hb, ms, hp⟩ := modulesLookup_eq_some hq
    exact ⟨e, hc, hb, some ms, hp⟩
  case h_2 hq =>
    split at h
    case h_1 => exact absurd h (by simp)
    case h_2 entries hp =>
      obtain ⟨e, he, hb, hmd, hpe⟩ := standaloneLookup_eq_some h
      exact ⟨e, mem_corpus_standalone hp he hmd, hb, none, hpe⟩

theorem exists_entry_of_mem_getAllPosts {fs : FS} {p : Post}
    (hp : p ∈ getAllPosts fs) :
    ∃ e ∈ corpusFiles fs, e.base = p.slug ∧ ∃ mo, p = postOfEntry e mo := by
  rcases mem_getAllPosts hp with h | h
  · obtain ⟨m, _, hpm⟩ := mem_getAllPostsFromModules h
    obtain ⟨root, d, hroot, hdir, _, hmem⟩ := mem_getPostsByModule hpm
    obtain ⟨e, he, hf, _, rfl⟩ := mem_memberPosts.1 hmem
    obtain ⟨hdm, _⟩ := findDir_mem hdir
    have hmd : isMarkdown e = true := by
      simp only [isMemberFile, Bool.and_eq_true] at hf
      simp [isMarkdown, hf.1]
    exact ⟨e, mem_corpus_module hroot hdm he hmd, rfl, some m.slug, rfl⟩
  · obtain ⟨entries, hpost, e, he, hmd, _, rfl⟩ := mem_standalonePosts h
    exact ⟨e, mem_corpus_standalone hpost he hmd, rfl, none, rfl⟩

theorem lookup_isSome {fs : FS} {p : Post} (hp : p ∈ getAllPosts fs) :
    (Posts.getPostBySlug fs p.slug).isSome = true := by
  rcases mem_getAllPosts hp with h | h
  · obtain ⟨m, hmm, hpm⟩ := mem_getAllPostsFromModules h
    obtain ⟨root, d, hroot, hdir, _, hmem⟩ := mem_getPostsByModule hpm
    obtain ⟨e, he, hf, _, rfl⟩ := mem_memberPosts.1 hmem
    have hmd : isMarkdown e = true := by
      simp only [isMemberFile, Bool.and_eq_true] at hf
      simp [isMarkdown, hf.1]
    have hm : (Modules.getPostBySlug fs (postOfEntry e (some m.slug)).slug).isSome = true := by
      unfold Modules.getPostBySlug
      rw [hroot]
      exact List.findSome?_isSome_iff.2 ⟨m, hmm, probeModule_isSome hdir he rfl hmd⟩
    unfold Posts.getPostBySlug
    obtain ⟨q, hq⟩ := Option.isSome_iff_exists.1 hm
    rw [hq]
    simp
  · obtain ⟨entries, hpost, e, he, hmd, _, rfl⟩ := mem_standalonePosts h
    show (Posts.getPostBySlug fs e.base).isSome = true
    unfold Posts.getPostBySlug
    cases hq : Modules.getPostBySlug fs e.base with
    | some q => simp
    | none =>
      rw [hpost]
      exact standaloneLookup_isSome he hmd

/-- C4, amended claim theorem.  For a post of `getAllPosts()` whose slug
resolves to a unique markdown file across the corpus, `getPostBySlug`
returns a record with identical `title`, `date` and `content`. -/
theorem claim4_roundtrip_amended (fs : FS) (p : Post) (hp : p ∈ getAllPosts fs)
    (huniq : uniqueSlug fs p.slug) :
    ∃ q, Posts.getPostBySlug fs p.slug = some q ∧
      q.title = p.title ∧ q.date = p.date ∧ q.content = p.content := by
  obtain ⟨e, hec, heb, mo, hpe⟩ := exists_entry_of_mem_getAllPosts hp
  obtain ⟨q, hq⟩ := Option.isSome_iff_exists.1 (lookup_isSome hp)
  obtain ⟨e2, he2c, he2b, mo2, hqe⟩ := lookup_eq_some hq
  have heq : e2 = e := huniq e2 he2c e hec he2b heb
  subst heq
  subst hpe
  subst hqe
  exact ⟨_, hq, rfl, rfl, rfl⟩

/-- Module descriptor of the C4 counterexample module. -/
def metaC4 : Entry :=
  { base := "metadata", ext := Ext.md, data := { title := some "Mod" } }

/-- A draft post file `x.md` inside the module directory. -/
def eC4draft : Entry :=
  { base := "x", ext := Ext.md,
    data := { title := some "Draft", date := some "0001-01-02",
              draft := some true },
    content := "draft body" }

/-- A published standalone post file `x.md` with the same slug. -/
def eC4std : Entry :=
  { base := "x", ext := Ext.md,
    data := { title := some "Standalone", date := some "0001-01-03" },
    content := "standalone body" }

/-- Filesystem of the C4 counterexample: a listed standalone post shadowed
on lookup by a draft module file with the same slug. -/
def fsC4 : FS :=
  { posts := some [eC4std]
    modules := some [DirEnt.dir { name := "mod", entries := [metaC4, eC4draft] }] }

/-- The standalone post as listed by `getAllPosts fsC4`. -/
def pC4 : Post := postOfEntry eC4std none

/-- The record the slug lookup actually returns for `x`. -/
def qC4 : Post := postOfEntry eC4draft (some "mod")

/-- C4 as stated is false: `pC4` is returned by `getAllPosts`, but
`getPostBySlug` on its slug resolves to the module's draft file first and
returns a record with a different title (and date, and content). -/
theorem claim4_roundtrip_counterexample :
    pC4 ∈ getAllPosts fsC4 ∧
    Posts.getPostBySlug fsC4 pC4.slug = some qC4 ∧
    qC4.title ≠ pC4.title := by
  decide

/-- Witness filesystem for the amended C4: one standalone post, unique
slug. -/
def fsC4w : FS :=
  { posts := some
      [{ base := "hello", ext := Ext.md,
         data := { title := some "Hello", date := some "0001-01-03" },
         content := "hi" }]
    modules := none }

/-- The single post of `fsC4w`. -/
def pC4w : Post :=
  postOfEntry
    { base := "hello", ext := Ext.md,
      data := { title := some "Hello", date := some "0001-01-03" },
      content := "hi" } none

theorem claim4_roundtrip_amended_witness :
    ∃ q, Posts.getPostBySlug fsC4w pC4w.slug = some q ∧
      q.title = pC4w.title ∧ q.date = pC4w.date ∧ q.content = pC4w.content :=
  claim4_roundtrip_amended fsC4w pC4w (by decide) (by decide)

/-! ## C10: the direct-fetch path never filters drafts -/

/-- C10, claim theorem.  In both branches of the aggregator's
`getPostBySlug` a draft file is returned as a full post record with
`draft = true`, never `null`: (1) a draft markdown file inside a resolved
module directory (with an unambiguous slug) is returned by the
module-probe branch; (2) a draft standalone file (when the module branch
misses) is returned by the standalone branch. -/
theorem claim10_direct_fetch_keeps_drafts :
    (∀ fs root d me e mslug, fs.modules = some root →
      findDir root mslug = some d → metaEntry d = some me →
      e ∈ d.entries → isMarkdown e = true → e.data.draft = some true →
      uniqueSlug fs e.base →
      ∃ q, Posts.getPostBySlug fs e.base = some q ∧ q.draft = true ∧
        q.content = e.content ∧ q.title = e.data.title.getD "") ∧
    (∀ fs entries e, fs.posts = some entries →
      Modules.getPostBySlug fs e.base = none →
      e ∈ entries → isMarkdown e = true → e.data.draft = some true →
      uniqueSlug fs e.base →
      ∃ q, Posts.getPostBySlug fs e.base = some q ∧ q.draft = true ∧
        q.content = e.content ∧ q.title = e.data.title.getD "") := by
  constructor
  · intro fs root d me e mslug hroot hdir hme he hmd hdraft huniq
    obtain ⟨hdm, hname⟩ := findDir_mem hdir
    have hmm : moduleOfMeta d.name me ∈ getAllModules fs :=
      moduleOfDir_mem_getAllModules hroot hdm hme
    have hdir' : findDir root (moduleOfMeta d.name me).slug = some d := by
      show findDir root d.name = some d
      rw [hname]
      exact hdir
    have hms : (Modules.getPostBySlug fs e.base).isSome = true := by
      unfold Modules.getPostBySlug
      rw [hroot]
      exact List.findSome?_isSome_iff.2
        ⟨moduleOfMeta d.name me, hmm, probeModule_isSome hdir' he rfl hmd⟩
    obtain ⟨q, hq⟩ := Option.isSome_iff_exists.1 hms
    have hpost : Posts.getPostBySlug fs e.base = some q := by
      unfold Posts.getPostBySlug
      rw [hq]
    obtain ⟨e2, he2c, he2b, ms, hqe⟩ := modulesLookup_eq_some hq
    have hee : e2 = e :=
      huniq e2 he2c e (mem_corpus_module hroot hdm he hmd) he2b rfl
    subst hee
    subst hqe
    refine ⟨_, hpost, ?_, rfl, rfl⟩
    simp [postOfEntry, hdraft]
  · intro fs entries e hp hnomod he hmd hdraft huniq
    have hs := standaloneLookup_isSome he hmd
    obtain ⟨q, hq⟩ := Option.isSome_iff_exists.1 hs
    have hpost : Posts.getPostBySlug fs e.base = some q := by
      unfold Posts.getPostBySlug
      rw [hnomod, hp]
      exact hq
    obtain ⟨e2, he2, he2b, he2md, hqe⟩ := standaloneLookup_eq_some hq
    have hee : e2 = e :=
      huniq e2 (mem_corpus_standalone hp he2 he2md) e
        (mem_corpus_standalone hp he hmd) he2b rfl
    subst hee
    subst hqe
    refine ⟨_, hpost, ?_, rfl, rfl⟩
    simp [postOfEntry, hdraft]

/-- Module descriptor for the C10 witness module. -/
def metaC10 : Entry :=
  { base := "metadata", ext := Ext.md, data := { title := some "Mod" } }

/-- Draft module file for the C10 witness. -/
def eC10a : Entry :=
  { base := "x", ext := Ext.md,
    data := { title := some "Hidden", date := some "0001-01-02",
              draft := some true },
    content := "hidden body" }

/-- Filesystem for the module half of the C10 witness. -/
def fsC10a : FS :=
  { posts := none
    modules := some [DirEnt.dir { name := "mod", entries := [metaC10, eC10a] }] }

/-- Draft standalone file for the C10 witness. -/
def eC10b : Entry :=
  { base := "y", ext := Ext.md,
    data := { title := some "Quiet", date := some "0001-01-02",
              draft := some true },
    content := "quiet body" }

/-- Filesystem for the standalone half of the C10 witness. -/
def fsC10b : FS := { posts := some [eC10b], modules := none }

theorem claim10_direct_fetch_keeps_drafts_witness :
    (∃ q, Posts.getPostBySlug fsC10a eC10a.base = some q ∧ q.draft = true ∧
      q.content = eC10a.content ∧ q.title = eC10a.data.title.getD "") ∧
    (∃ q, Posts.getPostBySlug fsC10b eC10b.base = some q ∧ q.draft = true ∧
      q.content = eC10b.content ∧ q.title = eC10b.data.title.getD "") :=
  ⟨claim10_direct_fetch_keeps_drafts.1 fsC10a
      (fsC10a.modules.getD []) { name := "mod", entries := [metaC10, eC10a] }
      metaC10 eC10a "mod" rfl (by decide) (by decide) (by decide) (by decide)
      rfl (by decide),
   claim10_direct_fetch_keeps_drafts.2 fsC10b [eC10b] eC10b rfl (by decide)
      (by decide) (by decide) rfl (by decide)⟩

end Blog
